import Mathlib

/-!
Verification of the text-chunking core of a small RAG pipeline.

The source (TypeScript) is embedded shallowly over `List Char`:

* `chunkText text chunkSize overlapSize` models
  `chunkText(text, chunkSize, overlapSize)` from `fileProcessor.ts`;
* `splitIntoSentences` models the regex-based sentence splitter;
* `splitSep` models `text.split(/\n\s*\n/)` (JavaScript `String.split`
  with a greedy, backtracking regex, scanned left to right);
* `addOverlapToChunks` models the overlap pass;
* `searchSimilarDocuments` / `generateRAGAnswer` model the retrieval
  and answer-generation flow of `pgClient.ts` / `ragService.ts`, with
  the embedding provider and database abstracted into a list of rows
  carrying precomputed similarity scores.

JavaScript strings are modelled as `List Char`; lengths are raw
character counts, matching the source's use of `.length` on strings
that, for the inputs considered here, stay within the basic plane.
-/

/-- Whitespace test matching JavaScript's `\s` class and `String.trim`
for the characters that can occur in the embedded texts. -/
def isWS (c : Char) : Bool :=
  c == ' ' || c == '\t' || c == '\n' || c == '\r' || c == '\x0b' ||
  c == '\x0c' || c == ' ' || c == ' ' || c == ' ' ||
  c == '　' || c == '﻿'

/-- Terminal sentence punctuation, matching the character class
`[.!?。！？]` of `splitIntoSentences`. -/
def isTerm (c : Char) : Bool :=
  c == '.' || c == '!' || c == '?' || c == '。' || c == '！' || c == '？'

/-- Left trim: drop leading JavaScript whitespace. -/
def trimLeft (l : List Char) : List Char := l.dropWhile isWS

/-- Right trim, written recursively: drop trailing JavaScript whitespace. -/
def trimRight : List Char → List Char
  | [] => []
  | c :: t =>
    match trimRight t with
    | [] => if isWS c then [] else [c]
    | d :: r => c :: d :: r

/-- Model of JavaScript `String.prototype.trim`. -/
def trim (l : List Char) : List Char := trimRight (trimLeft l)

/-- The two-newline separator `'\n\n'` used by the chunker. -/
def sep2 : List Char := ['\n', '\n']

/-- Number of newline characters in a list. -/
def nlCount (l : List Char) : Nat := (l.filter (fun c => c == '\n')).length

/-- Characters of a whitespace run that precede its first newline. -/
def preNl (l : List Char) : List Char := l.takeWhile (fun c => c != '\n')

/-- Characters of a whitespace run that follow its last newline. -/
def postNl (l : List Char) : List Char :=
  (l.reverse.takeWhile (fun c => c != '\n')).reverse

/-- The span of a whitespace run from its first newline to its last
newline: exactly the characters the separator regex `\n\s*\n` consumes
(greedy `\s*` with one backtracking step to end on a newline). -/
def midNl (l : List Char) : List Char :=
  ((l.dropWhile (fun c => c != '\n')).reverse.dropWhile (fun c => c != '\n')).reverse

/-- State machine equivalent of `text.split(/\n\s*\n/)`: `cur` is the
piece being built, `pend` the pending maximal whitespace run.  A run
containing at least two newlines contains exactly one (leftmost,
greedy) match of `\n\s*\n`, reaching from its first to its last
newline; whitespace before the first newline stays with the preceding
piece, whitespace after the last newline starts the next piece. -/
def splitGo (cur pend : List Char) : List Char → List (List Char)
  | [] =>
    if 2 ≤ nlCount pend then [cur ++ preNl pend, postNl pend]
    else [cur ++ pend]
  | c :: t =>
    if isWS c then splitGo cur (pend ++ [c]) t
    else if 2 ≤ nlCount pend then
      (cur ++ preNl pend) :: splitGo (postNl pend ++ [c]) [] t
    else splitGo (cur ++ pend ++ [c]) [] t

/-- Model of `text.split(/\n\s*\n/)`. -/
def splitSep (text : List Char) : List (List Char) := splitGo [] [] text

/-- State machine equivalent of the global regex match
`text.match(/[^.!?。！？]+[.!?。！？]+/g)`: `pre` is the current run of
non-terminal characters, `toks` the current run of terminal
characters.  A terminal character at a position where no match can
start (empty `pre`) is skipped, exactly as the regex engine advances
past positions where `[^.!?。！？]+` cannot match. -/
def sentGo (acc : List (List Char)) (pre toks : List Char) : List Char → List (List Char)
  | [] => if pre ≠ [] ∧ toks ≠ [] then acc ++ [pre ++ toks] else acc
  | c :: t =>
    if isTerm c then
      if pre = [] then sentGo acc [] [] t
      else sentGo acc pre (toks ++ [c]) t
    else
      if toks = [] then sentGo acc (pre ++ [c]) [] t
      else sentGo (acc ++ [pre ++ toks]) [c] [] t

/-- All matches of `[^.!?。！？]+[.!?。！？]+` in order. -/
def sentMatches (l : List Char) : List (List Char) := sentGo [] [] [] l

/-- Model of `splitIntoSentences` from `fileProcessor.ts`.  Note the
source computes the start of the unmatched remainder as the SUM of the
match lengths (`sentences.join('').length`) and takes
`text.substring(matchedLength)`, which is only correct when the
matches cover a prefix of the text. -/
def splitIntoSentences (text : List Char) : List (List Char) :=
  let sentences := sentMatches text
  let matchedLength := sentences.flatten.length
  let withRem :=
    if matchedLength < text.length then
      let remaining := trim (text.drop matchedLength)
      if 0 < remaining.length then sentences ++ [remaining] else sentences
    else sentences
  (withRem.map trim).filter (fun s => decide (0 < s.length))

/-- One step of the inner sentence-accumulation loop of `chunkText`
(lines 58–67 of `fileProcessor.ts`); the state is
`(chunks so far, sentenceChunk)`. -/
def stepSentence (chunkSize : Nat) (st : List (List Char) × List Char)
    (sentence : List Char) : List (List Char) × List Char :=
  if (st.2 ++ ' ' :: sentence).length ≤ chunkSize then
    (st.1, if st.2 = [] then sentence else st.2 ++ ' ' :: sentence)
  else
    ((if trim st.2 = [] then st.1 else st.1 ++ [trim st.2]), sentence)

/-- One step of the paragraph loop of `chunkText` (lines 40–80); the
state is `(chunks so far, currentChunk)`. -/
def stepParagraph (chunkSize : Nat) (st : List (List Char) × List Char)
    (paragraph : List Char) : List (List Char) × List Char :=
  let tp := trim paragraph
  if (st.2 ++ sep2 ++ tp).length ≤ chunkSize then
    (st.1, if st.2 = [] then tp else st.2 ++ sep2 ++ tp)
  else
    let cks := if trim st.2 = [] then st.1 else st.1 ++ [trim st.2]
    if chunkSize < tp.length then
      let res := (splitIntoSentences tp).foldl (stepSentence chunkSize) (cks, [])
      (res.1, if trim res.2 = [] then [] else trim res.2)
    else
      (cks, tp)

/-- The non-empty paragraphs of the input, as in line 33 of the source:
`text.split(/\n\s*\n/).filter(p => p.trim().length > 0)`. -/
def paragraphsOf (text : List Char) : List (List Char) :=
  (splitSep text).filter (fun p => decide (0 < (trim p).length))

/-- The `chunks` array of `chunkText` just before the overlap pass:
paragraph loop followed by the final flush of `currentChunk`. -/
def baseChunks (text : List Char) (chunkSize : Nat) : List (List Char) :=
  let res := (paragraphsOf text).foldl (stepParagraph chunkSize) ([], [])
  if trim res.2 = [] then res.1 else res.1 ++ [trim res.2]

/-- The start index `Math.max(0, prevChunk.length - overlapSize)` used
by the overlap pass, over the integers as in the source. -/
def overlapStart (prevLen overlapSize : Nat) : Int :=
  max 0 ((prevLen : Int) - (overlapSize : Int))

/-- Model of `String.prototype.substring(start)` for a clamped,
in-range start index. -/
def jsSubstring (l : List Char) (start : Int) : List Char := l.drop start.toNat

/-- The overlap loop for the chunks after the first; `prev` is the
previous original (pre-overlap) chunk. -/
def overlapGo (overlapSize : Nat) (prev : List Char) :
    List (List Char) → List (List Char)
  | [] => []
  | c :: t =>
    (jsSubstring prev (overlapStart prev.length overlapSize) ++ sep2 ++ c) ::
      overlapGo overlapSize c t

/-- Model of `addOverlapToChunks` from `fileProcessor.ts`: the first
chunk is kept unchanged, every later chunk is prefixed with the last
`overlapSize` characters of the previous pre-overlap chunk joined by a
blank line. -/
def addOverlapToChunks (chunks : List (List Char)) (overlapSize : Nat) :
    List (List Char) :=
  match chunks with
  | [] => []
  | c :: t => c :: overlapGo overlapSize c t

/-- Model of `chunkText` from `fileProcessor.ts`. -/
def chunkText (text : List Char) (chunkSize overlapSize : Nat) :
    List (List Char) :=
  if (trim text).length = 0 then []
  else
    let chunks := baseChunks text chunkSize
    if 0 < overlapSize ∧ 1 < chunks.length then
      addOverlapToChunks chunks overlapSize
    else chunks.filter (fun c => decide (0 < (trim c).length))

/-- Checked variant of `substring`: returns `none` when the start index
would read before the start or past the end of the string.  Used to
show the clamped overlap access is always in bounds. -/
def substringChecked (l : List Char) (start : Int) : Option (List Char) :=
  if 0 ≤ start ∧ start ≤ (l.length : Int) then some (l.drop start.toNat)
  else none

/-- Overlap loop threading the checked substring access. -/
def overlapGoChecked (overlapSize : Nat) (prev : List Char) :
    List (List Char) → Option (List (List Char))
  | [] => some []
  | c :: t =>
    match substringChecked prev (overlapStart prev.length overlapSize) with
    | none => none
    | some ov =>
      match overlapGoChecked overlapSize c t with
      | none => none
      | some r => some ((ov ++ sep2 ++ c) :: r)

/-- Checked variant of `addOverlapToChunks`. -/
def addOverlapChecked (chunks : List (List Char)) (overlapSize : Nat) :
    Option (List (List Char)) :=
  match chunks with
  | [] => some []
  | c :: t =>
    match overlapGoChecked overlapSize c t with
    | none => none
    | some r => some (c :: r)

/-- Checked variant of `chunkText`: every fallible string access is
threaded through `Option`, so `= some …` states that the computation
never faults, on any input. -/
def chunkTextChecked (text : List Char) (chunkSize overlapSize : Nat) :
    Option (List (List Char)) :=
  if (trim text).length = 0 then some []
  else
    let chunks := baseChunks text chunkSize
    if 0 < overlapSize ∧ 1 < chunks.length then
      addOverlapChecked chunks overlapSize
    else some (chunks.filter (fun c => decide (0 < (trim c).length)))

/-- Join a list of pieces with the blank-line separator. -/
def joinSep2 : List (List Char) → List Char
  | [] => []
  | [x] => x
  | x :: y :: r => x ++ sep2 ++ joinSep2 (y :: r)

/-- The accumulation performed by the paragraph loop when no flush ever
happens: fold the trimmed paragraphs into one buffer joined by blank
lines. -/
def joinAcc (cc : List Char) (ps : List (List Char)) : List Char :=
  ps.foldl (fun a p => if a = [] then trim p else a ++ sep2 ++ trim p) cc

/-- The blank-line-normalised content of a piece list: trim every
piece, drop the empty ones, join with a blank line. -/
def normParts (parts : List (List Char)) : List Char :=
  joinSep2 ((parts.map trim).filter (fun s => decide (s ≠ [])))

/-- Invariant of the sentence-accumulation loop: a chunk is trimmed,
non-empty, and either within the size bound or a single sentence of the
fixed sentence list `SS`. -/
def GoodSent (SS : List (List Char)) (chunkSize : Nat) (c : List Char) : Prop :=
  trim c = c ∧ c ≠ [] ∧ (c.length ≤ chunkSize ∨ c ∈ SS)

/-- Invariant of the paragraph loop: a produced chunk is trimmed,
non-empty, and either within the size bound or a single sentence of one
of the paragraphs in `PP`. -/
def GoodChunk (PP : List (List Char)) (chunkSize : Nat) (c : List Char) : Prop :=
  trim c = c ∧ c ≠ [] ∧
    (c.length ≤ chunkSize ∨ ∃ p ∈ PP, c ∈ splitIntoSentences (trim p))

/-- A row of the `documents` table, with the cosine similarity of its
embedding against the query vector precomputed; the list stands for the
result set in the store's similarity order (`ORDER BY embedding <=> $1`),
which the SQL engine owns. -/
structure DocRow where
  id : Nat
  similarity : Rat
  content : List Char
deriving DecidableEq

/-- A search hit as returned by `searchSimilarDocuments`. -/
structure SearchHit where
  id : Nat
  score : Rat
  text : List Char
deriving DecidableEq

/-- The default similarity threshold `0.3` of `searchSimilarDocuments`
in `pgClient.ts`. -/
def ragThreshold : Rat := 3 / 10

/-- Model of `searchSimilarDocuments(query, limit, threshold)` from
`pgClient.ts`: filter rows above the threshold and take `limit`; when
that primary query returns no rows, retry WITHOUT the threshold and
return up to `limit` rows regardless of similarity. -/
def searchSimilarDocuments (rows : List DocRow) (limit : Nat)
    (threshold : Rat) : List SearchHit :=
  let result :=
    ((rows.filter (fun r => decide (threshold < r.similarity))).take limit).map
      (fun r => SearchHit.mk r.id r.similarity r.content)
  if 0 < result.length then result
  else
    ((rows.take limit).map (fun r => SearchHit.mk r.id r.similarity r.content))

/-- A source entry of a RAG answer, with the truncated preview built at
lines 103–110 of `ragService.ts`. -/
structure RagSource where
  id : Nat
  score : Rat
  text : List Char
  chunkPreview : List Char
deriving DecidableEq

/-- The answer and source list of `generateRAGAnswer` (response time and
token accounting are wall-clock data and are omitted). -/
structure RAGResponse where
  answer : List Char
  sources : List RagSource
deriving DecidableEq

/-- The fixed no-result answer of `generateRAGAnswer`. -/
def noRelevantInfoMessage : List Char :=
  "申し訳ございませんが、関連する情報が見つかりませんでした。質問を変えて再度お試しください。".toList

/-- The fallback answer used when the model returns empty content. -/
def genericErrorMessage : List Char := "エラーが発生しました".toList

/-- The `chunk_preview` field: first 150 characters plus an ellipsis
when the text is longer than 150 characters. -/
def previewOf (t : List Char) : List Char :=
  if 150 < t.length then t.take 150 ++ "...".toList else t

/-- Model of `generateRAGAnswer` from `ragService.ts`: search with the
default threshold, answer with the fixed no-result message and an empty
source list when the search returned nothing, otherwise answer with the
model output (`llmAnswer`, abstracting the OpenAI call) and one source
per hit. -/
def generateRAGAnswer (rows : List DocRow) (maxSources : Nat)
    (llmAnswer : List Char) : RAGResponse :=
  let searchResults := searchSimilarDocuments rows maxSources ragThreshold
  if searchResults.length = 0 then
    { answer := noRelevantInfoMessage, sources := [] }
  else
    { answer := if llmAnswer = [] then genericErrorMessage else llmAnswer,
      sources := searchResults.map (fun h =>
        RagSource.mk h.id h.score h.text (previewOf h.text)) }

/-! ### Generic list lemmas -/

theorem length_dropWhile_le' (p : Char → Bool) (l : List Char) :
    (l.dropWhile p).length ≤ l.length := by
  induction l with
  | nil => simp
  | cons c t ih =>
    by_cases hc : p c
    · rw [List.dropWhile_cons_of_pos hc]
      exact le_trans ih (by simp)
    · rw [List.dropWhile_cons_of_neg hc]

theorem dropWhile_eq_self_of_length {p : Char → Bool} {l : List Char}
    (h : (l.dropWhile p).length = l.length) : l.dropWhile p = l := by
  induction l with
  | nil => rfl
  | cons c t ih =>
    by_cases hc : p c
    · rw [List.dropWhile_cons_of_pos hc] at h ⊢
      have h2 : (t.dropWhile p).length ≤ t.length := length_dropWhile_le' p t
      rw [List.length_cons] at h
      exact absurd h (by omega)
    · rw [List.dropWhile_cons_of_neg hc]

theorem takeWhile_append_stop {p : Char → Bool} {xs ys : List Char}
    (h : ∃ a ∈ xs, ¬ p a) : (xs ++ ys).takeWhile p = xs.takeWhile p := by
  induction xs with
  | nil => obtain ⟨a, ha, -⟩ := h; cases ha
  | cons c t ih =>
    by_cases hc : p c
    · have h' : ∃ a ∈ t, ¬ p a := by
        obtain ⟨a, ha, hp⟩ := h
        rcases List.mem_cons.mp ha with rfl | ha'
        · exact absurd hc hp
        · exact ⟨a, ha', hp⟩
      rw [List.cons_append, List.takeWhile_cons_of_pos hc,
        List.takeWhile_cons_of_pos hc, ih h']
    · rw [List.cons_append, List.takeWhile_cons_of_neg hc,
        List.takeWhile_cons_of_neg hc]

theorem filter_eq_self_of_all {l : List (List Char)}
    (q : List Char → Bool) (h : ∀ a ∈ l, q a) : l.filter q = l := by
  induction l with
  | nil => rfl
  | cons c t ih =>
    rw [List.filter_cons, if_pos (h c (List.mem_cons_self c t))]
    rw [ih (fun a ha => h a (List.mem_cons_of_mem c ha))]

/-! ### Trimming lemmas -/

theorem isTerm_not_isWS {c : Char} (h : isTerm c) : ¬ isWS c := by
  simp only [isTerm, Bool.or_eq_true, beq_iff_eq] at h
  rcases h with ((((h | h) | h) | h) | h) | h <;> subst h <;> decide

theorem trimLeft_eq_nil_iff {l : List Char} :
    trimLeft l = [] ↔ ∀ c ∈ l, isWS c := by
  unfold trimLeft
  induction l with
  | nil => simp
  | cons c t ih =>
    by_cases hc : isWS c
    · rw [List.dropWhile_cons_of_pos hc]
      constructor
      · intro h x hx
        rcases List.mem_cons.mp hx with rfl | hx'
        · exact hc
        · exact ih.mp h x hx'
      · intro h
        exact ih.mpr (fun x hx => h x (List.mem_cons_of_mem c hx))
    · rw [List.dropWhile_cons_of_neg hc]
      constructor
      · intro h; cases h
      · intro h; exact absurd (h c (List.mem_cons_self c t)) hc

theorem trimLeft_length_le (l : List Char) : (trimLeft l).length ≤ l.length :=
  length_dropWhile_le' isWS l

theorem trimLeft_idem (l : List Char) : trimLeft (trimLeft l) = trimLeft l := by
  unfold trimLeft
  induction l with
  | nil => rfl
  | cons c t ih =>
    by_cases hc : isWS c
    · rw [List.dropWhile_cons_of_pos hc]; exact ih
    · rw [List.dropWhile_cons_of_neg hc, List.dropWhile_cons_of_neg hc]

theorem trimRight_cons (c : Char) (t : List Char) :
    trimRight (c :: t) =
      match trimRight t with
      | [] => if isWS c then [] else [c]
      | d :: r => c :: d :: r := rfl

theorem trimRight_eq_nil_iff {l : List Char} :
    trimRight l = [] ↔ ∀ c ∈ l, isWS c := by
  induction l with
  | nil => simp [trimRight]
  | cons c t ih =>
    rw [trimRight_cons]
    cases h : trimRight t with
    | nil =>
      have ht : ∀ x ∈ t, isWS x := ih.mp h
      by_cases hc : isWS c
      · rw [if_pos hc]
        constructor
        · intro _ x hx
          rcases List.mem_cons.mp hx with rfl | hx'
          · exact hc
          · exact ht x hx'
        · intro _
          rfl
      · rw [if_neg hc]
        constructor
        · intro hcontra; cases hcontra
        · intro hall; exact absurd (hall c (List.mem_cons_self c t)) hc
    | cons d r =>
      constructor
      · intro hcontra; cases hcontra
      · intro hall
        have ht : ∀ x ∈ t, isWS x :=
          fun x hx => hall x (List.mem_cons_of_mem c hx)
        rw [ih.mpr ht] at h
        cases h

theorem trimRight_length_le (l : List Char) : (trimRight l).length ≤ l.length := by
  induction l with
  | nil => simp [trimRight]
  | cons c t ih =>
    rw [trimRight_cons]
    cases h : trimRight t with
    | nil =>
      by_cases hc : isWS c
      · rw [if_pos hc]; simp
      · rw [if_neg hc]; simp
    | cons d r =>
      rw [h] at ih
      simp only [List.length_cons] at ih ⊢
      omega

theorem trimRight_append_allws {x w : List Char} (h : ∀ c ∈ w, isWS c) :
    trimRight (x ++ w) = trimRight x := by
  induction x with
  | nil =>
    simp only [List.nil_append]
    rw [trimRight_eq_nil_iff.mpr h]
    rfl
  | cons c t ih =>
    rw [List.cons_append, trimRight_cons, ih, ← trimRight_cons]

theorem trimRight_append_ne {x y : List Char} (h : trimRight y ≠ []) :
    trimRight (x ++ y) = x ++ trimRight y := by
  induction x with
  | nil => simp
  | cons c t ih =>
    rw [List.cons_append, trimRight_cons, ih]
    have hne : t ++ trimRight y ≠ [] := by
      intro hcontra
      exact h (List.append_eq_nil.mp hcontra).2
    obtain ⟨d, r, hq⟩ := List.exists_cons_of_ne_nil hne
    rw [hq]
    show c :: d :: r = (c :: t) ++ trimRight y
    rw [List.cons_append, hq]

theorem trimRight_length_append {x y : List Char} :
    (trimRight x).length ≤ (trimRight (x ++ y)).length := by
  induction x with
  | nil => simp [trimRight]
  | cons c t ih =>
    rw [List.cons_append, trimRight_cons, trimRight_cons]
    cases h1 : trimRight t with
    | nil =>
      cases h2 : trimRight (t ++ y) with
      | nil =>
        by_cases hc : isWS c
        · simp [hc]
        · simp [hc]
      | cons d r =>
        by_cases hc : isWS c
        · simp [hc]
        · rw [if_neg hc]
          simp only [List.length_cons, List.length_nil]
          omega
    | cons d r =>
      cases h2 : trimRight (t ++ y) with
      | nil =>
        rw [h1, h2] at ih
        simp at ih
      | cons e s =>
        rw [h1, h2] at ih
        simp only [List.length_cons] at ih ⊢
        omega

theorem trimRight_length_append_left {x y : List Char} :
    (trimRight y).length ≤ (trimRight (x ++ y)).length := by
  by_cases h : trimRight y = []
  · simp [h]
  · rw [trimRight_append_ne h]
    simp

theorem trimRight_idem (l : List Char) : trimRight (trimRight l) = trimRight l := by
  induction l with
  | nil => rfl
  | cons c t ih =>
    cases h : trimRight t with
    | nil =>
      rw [trimRight_cons, h]
      show trimRight (if isWS c then [] else [c]) = if isWS c then [] else [c]
      by_cases hc : isWS c
      · rw [if_pos hc]; rfl
      · rw [if_neg hc, show trimRight [c] = if isWS c then [] else [c] from rfl,
          if_neg hc]
    | cons d r =>
      rw [trimRight_cons, h]
      show trimRight (c :: d :: r) = c :: d :: r
      rw [h] at ih
      rw [trimRight_cons, ih]

theorem dropWhile_append_of_ne_nil {p : Char → Bool} {xs ys : List Char}
    (h : xs.dropWhile p ≠ []) :
    (xs ++ ys).dropWhile p = xs.dropWhile p ++ ys := by
  rw [List.dropWhile_append, if_neg (by simp [List.isEmpty_iff, h])]

theorem trimLeft_trimRight {z : List Char} (h : trimLeft z = z) :
    trimLeft (trimRight z) = trimRight z := by
  cases z with
  | nil => rfl
  | cons c t =>
    have hc : ¬ isWS c := by
      intro hc
      unfold trimLeft at h
      rw [List.dropWhile_cons_of_pos hc] at h
      have h1 : (t.dropWhile isWS).length ≤ t.length := length_dropWhile_le' isWS t
      have h2 := congrArg List.length h
      rw [List.length_cons] at h2
      omega
    rw [trimRight_cons]
    cases ht : trimRight t with
    | nil =>
      by_cases hw : isWS c
      · exact absurd hw hc
      · rw [if_neg hw]
        unfold trimLeft
        rw [List.dropWhile_cons_of_neg hw]
    | cons d r =>
      unfold trimLeft
      rw [List.dropWhile_cons_of_neg hc]

theorem trim_eq_nil_iff {l : List Char} : trim l = [] ↔ ∀ c ∈ l, isWS c := by
  unfold trim
  rw [trimRight_eq_nil_iff]
  constructor
  · intro h c hc
    by_cases hws : isWS c
    · exact hws
    · rw [← List.takeWhile_append_dropWhile isWS l] at hc
      rcases List.mem_append.mp hc with h1 | h1
      · exact absurd (List.mem_takeWhile_imp h1) hws
      · exact h c h1
  · intro h c hc
    exact h c ((List.dropWhile_sublist _).subset hc)

theorem trim_length_le (l : List Char) : (trim l).length ≤ l.length :=
  le_trans (trimRight_length_le _) (trimLeft_length_le l)

theorem trim_idem (l : List Char) : trim (trim l) = trim l := by
  unfold trim
  rw [trimLeft_trimRight (trimLeft_idem l), trimRight_idem]

theorem trim_append_allws {x w : List Char} (h : ∀ c ∈ w, isWS c) :
    trim (x ++ w) = trim x := by
  by_cases hx : trimLeft x = []
  · have hxall : ∀ c ∈ x, isWS c := trimLeft_eq_nil_iff.mp hx
    unfold trim trimLeft
    unfold trimLeft at hx
    rw [List.dropWhile_append_of_pos hxall, hx]
    rw [trimRight_eq_nil_iff.mpr (fun c hc => h c ((List.dropWhile_sublist _).subset hc))]
    rfl
  · unfold trim trimLeft
    rw [dropWhile_append_of_ne_nil hx]
    exact trimRight_append_allws h

theorem trim_allws_append {w x : List Char} (h : ∀ c ∈ w, isWS c) :
    trim (w ++ x) = trim x := by
  unfold trim trimLeft
  rw [List.dropWhile_append_of_pos h]

theorem trim_mono_append {x y : List Char} :
    (trim x).length ≤ (trim (x ++ y)).length := by
  by_cases hx : trimLeft x = []
  · rw [trim, hx]
    simp [trimRight]
  · unfold trim trimLeft
    rw [dropWhile_append_of_ne_nil hx]
    exact trimRight_length_append

theorem trim_le_trimRight (l : List Char) :
    (trim l).length ≤ (trimRight l).length := by
  conv_rhs => rw [← List.takeWhile_append_dropWhile isWS l]
  exact trimRight_length_append_left

theorem trimLeft_of_trim_fix {x : List Char} (h : trim x = x) : trimLeft x = x := by
  have h1 : (trim x).length ≤ (trimLeft x).length := trimRight_length_le _
  have h2 : (trimLeft x).length ≤ x.length := trimLeft_length_le x
  have h3 := congrArg List.length h
  have h4 : (trimLeft x).length = x.length := by omega
  unfold trimLeft at h4 ⊢
  exact dropWhile_eq_self_of_length h4

theorem trimRight_of_trim_fix {x : List Char} (h : trim x = x) : trimRight x = x := by
  have h1 := trimLeft_of_trim_fix h
  rw [trim, h1] at h
  exact h

theorem trimLeft_fix_append {x y : List Char} (hx : trimLeft x = x) (hxn : x ≠ []) :
    trimLeft (x ++ y) = x ++ y := by
  cases x with
  | nil => exact absurd rfl hxn
  | cons c t =>
    have hc : ¬ isWS c := by
      intro hc
      unfold trimLeft at hx
      rw [List.dropWhile_cons_of_pos hc] at hx
      have h1 : (t.dropWhile isWS).length ≤ t.length := length_dropWhile_le' isWS t
      have h2 := congrArg List.length hx
      rw [List.length_cons] at h2
      omega
    unfold trimLeft
    rw [List.cons_append, List.dropWhile_cons_of_neg hc]

theorem trim_fix_append {x m y : List Char} (hx : trim x = x) (hxn : x ≠ [])
    (hy : trim y = y) (hyn : y ≠ []) : trim (x ++ m ++ y) = x ++ m ++ y := by
  have hyr : trimRight y = y := trimRight_of_trim_fix hy
  have h3 : trimRight y ≠ [] := by rw [hyr]; exact hyn
  have hl : trimLeft (x ++ m ++ y) = x ++ m ++ y := by
    rw [List.append_assoc]
    exact trimLeft_fix_append (trimLeft_of_trim_fix hx) hxn
  rw [trim, hl, trimRight_append_ne h3, hyr]

theorem trim_mid_eq {A mid B : List Char} (hA : trim A ≠ []) (hB : trim B ≠ []) :
    trim (A ++ mid ++ B) = trimLeft A ++ (mid ++ trimRight B) := by
  have hA' : trimLeft A ≠ [] := by
    intro h
    exact hA (by rw [trim, h]; rfl)
  have hBr : trimRight B ≠ [] := by
    intro h
    exact hB (trim_eq_nil_iff.mpr (trimRight_eq_nil_iff.mp h))
  have h1 : trimRight (mid ++ B) = mid ++ trimRight B := trimRight_append_ne hBr
  have h2 : trimRight (mid ++ B) ≠ [] := by
    rw [h1]
    intro hcontra
    exact hBr (List.append_eq_nil.mp hcontra).2
  calc trim (A ++ mid ++ B)
      = trimRight (A.dropWhile isWS ++ (mid ++ B)) := by
        rw [trim, trimLeft, List.append_assoc, dropWhile_append_of_ne_nil hA']
    _ = A.dropWhile isWS ++ trimRight (mid ++ B) := trimRight_append_ne h2
    _ = trimLeft A ++ (mid ++ trimRight B) := by rw [h1]; rfl

theorem trim_ne_nil_of_mem {l : List Char} {c : Char} (hc : c ∈ l)
    (hw : ¬ isWS c) : trim l ≠ [] :=
  fun h => hw (trim_eq_nil_iff.mp h c hc)

theorem exists_nonws_of_trim_ne {l : List Char} (h : trim l ≠ []) :
    ∃ c ∈ l, ¬ isWS c := by
  by_contra hc
  push_neg at hc
  refine h (trim_eq_nil_iff.mpr ?_)
  intro c hcl
  have := hc c hcl
  simpa using this

/-! ### Decomposition of a whitespace run around its newline span -/

theorem nlCount_append (x y : List Char) :
    nlCount (x ++ y) = nlCount x + nlCount y := by
  unfold nlCount
  rw [List.filter_append, List.length_append]

theorem nlCount_le_length (l : List Char) : nlCount l ≤ l.length :=
  List.length_filter_le _ l

theorem nlCount_preNl (l : List Char) : nlCount (preNl l) = 0 := by
  unfold nlCount
  rw [List.length_eq_zero, List.filter_eq_nil_iff]
  intro a ha
  have hp := List.mem_takeWhile_imp ha
  simp only [bne_iff_ne, ne_eq] at hp
  simpa using hp

theorem nlCount_postNl (l : List Char) : nlCount (postNl l) = 0 := by
  unfold nlCount
  rw [List.length_eq_zero, List.filter_eq_nil_iff]
  intro a ha
  unfold postNl at ha
  rw [List.mem_reverse] at ha
  have hp := List.mem_takeWhile_imp ha
  simp only [bne_iff_ne, ne_eq] at hp
  simpa using hp

theorem mem_nl_of_nlCount {l : List Char} (h : 1 ≤ nlCount l) : '\n' ∈ l := by
  unfold nlCount at h
  have hne : l.filter (fun c => c == '\n') ≠ [] := by
    intro hc
    rw [hc] at h
    simp at h
  obtain ⟨a, ha⟩ := List.exists_mem_of_ne_nil _ hne
  have hm := List.mem_filter.mp ha
  have ha2 : a = '\n' := by simpa using hm.2
  subst ha2
  exact hm.1

theorem mem_of_mem_preNl {l : List Char} {a : Char} (h : a ∈ preNl l) : a ∈ l :=
  (List.takeWhile_sublist _).subset h

theorem mem_of_mem_postNl {l : List Char} {a : Char} (h : a ∈ postNl l) : a ∈ l := by
  unfold postNl at h
  rw [List.mem_reverse] at h
  exact List.mem_reverse.mp ((List.takeWhile_sublist _).subset h)

theorem mem_of_mem_midNl {l : List Char} {a : Char} (h : a ∈ midNl l) : a ∈ l := by
  unfold midNl at h
  rw [List.mem_reverse] at h
  have h1 := (List.dropWhile_sublist _).subset h
  rw [List.mem_reverse] at h1
  exact (List.dropWhile_sublist _).subset h1

theorem pend_decomp {l : List Char} (h : '\n' ∈ l) :
    preNl l ++ (midNl l ++ postNl l) = l := by
  have hpre : '\n' ∈ l.dropWhile (fun c => c != '\n') := by
    rw [← List.takeWhile_append_dropWhile (fun c => c != '\n') l] at h
    rcases List.mem_append.mp h with h1 | h1
    · have := List.mem_takeWhile_imp h1
      simp at this
    · exact h1
  have hstop : postNl l =
      ((l.dropWhile (fun c => c != '\n')).reverse.takeWhile
        (fun c => c != '\n')).reverse := by
    unfold postNl
    congr 1
    conv_lhs => rw [← List.takeWhile_append_dropWhile (fun c => c != '\n') l]
    rw [List.reverse_append]
    exact takeWhile_append_stop ⟨'\n', List.mem_reverse.mpr hpre, by simp⟩
  have h2 := List.takeWhile_append_dropWhile (fun c => c != '\n')
    (l.dropWhile (fun c => c != '\n')).reverse
  have h3 := congrArg List.reverse h2
  rw [List.reverse_append, List.reverse_reverse] at h3
  calc preNl l ++ (midNl l ++ postNl l)
      = preNl l ++ l.dropWhile (fun c => c != '\n') := by
        rw [hstop,
          show midNl l = ((l.dropWhile (fun c => c != '\n')).reverse.dropWhile
            (fun c => c != '\n')).reverse from rfl, h3]
    _ = l := List.takeWhile_append_dropWhile _ l

theorem two_le_midNl_length {l : List Char} (h : 2 ≤ nlCount l) :
    2 ≤ (midNl l).length := by
  have hmem : '\n' ∈ l := mem_nl_of_nlCount (by omega)
  have hd := pend_decomp hmem
  have hcount := congrArg nlCount hd
  rw [nlCount_append, nlCount_append, nlCount_preNl, nlCount_postNl] at hcount
  have h2 : 2 ≤ nlCount (midNl l) := by omega
  exact le_trans h2 (nlCount_le_length _)

/-! ### Properties of the normalised join -/

theorem normParts_nil : normParts [] = [] := rfl

theorem normParts_eq_nil_iff {R : List (List Char)} :
    normParts R = [] ↔ (R.map trim).filter (fun s => decide (s ≠ [])) = [] := by
  unfold normParts
  cases h : (R.map trim).filter (fun s => decide (s ≠ [])) with
  | nil => simp [joinSep2]
  | cons q qs =>
    constructor
    · intro hj
      have hq : q ≠ [] := by
        have hmem : q ∈ (R.map trim).filter (fun s => decide (s ≠ [])) := by
          rw [h]; exact List.mem_cons_self _ _
        have := (List.mem_filter.mp hmem).2
        simpa using this
      cases qs with
      | nil => exact absurd hj hq
      | cons r rs => simp [joinSep2, sep2] at hj
    · intro hcontra
      cases hcontra

theorem normParts_cons_of_nil {P : List Char} {R : List (List Char)}
    (h : trim P = []) : normParts (P :: R) = normParts R := by
  unfold normParts
  rw [List.map_cons, List.filter_cons, if_neg (by simp [h])]

theorem normParts_cons_of_ne_nil {P : List Char} {R : List (List Char)}
    (h : trim P ≠ []) (h2 : normParts R = []) : normParts (P :: R) = trim P := by
  unfold normParts
  rw [List.map_cons, List.filter_cons, if_pos (by simpa using h),
    normParts_eq_nil_iff.mp h2]
  rfl

theorem normParts_cons_of_ne {P : List Char} {R : List (List Char)}
    (h : trim P ≠ []) (h2 : normParts R ≠ []) :
    normParts (P :: R) = trim P ++ sep2 ++ normParts R := by
  unfold normParts
  rw [List.map_cons, List.filter_cons, if_pos (by simpa using h)]
  cases hq : (R.map trim).filter (fun s => decide (s ≠ [])) with
  | nil => exact absurd (normParts_eq_nil_iff.mpr hq) h2
  | cons q qs => rfl

/-! ### Properties of the paragraph splitter -/

theorem splitGo_mem_chars :
    ∀ (l cur pend part : List Char) (c : Char),
      part ∈ splitGo cur pend l → c ∈ part → c ∈ (cur ++ pend) ++ l := by
  intro l
  induction l with
  | nil =>
    intro cur pend part c hpart hc
    rw [splitGo] at hpart
    by_cases h2 : 2 ≤ nlCount pend
    · rw [if_pos h2] at hpart
      rcases List.mem_cons.mp hpart with rfl | hpart'
      · rcases List.mem_append.mp hc with h1 | h1
        · simp [h1]
        · simp [mem_of_mem_preNl h1]
      · rcases List.mem_cons.mp hpart' with rfl | hpart''
        · simp [mem_of_mem_postNl hc]
        · cases hpart''
    · rw [if_neg h2] at hpart
      rcases List.mem_cons.mp hpart with rfl | hpart'
      · simpa using hc
      · cases hpart'
  | cons a t ih =>
    intro cur pend part c hpart hc
    rw [splitGo] at hpart
    by_cases hws : isWS a
    · rw [if_pos hws] at hpart
      have h := ih cur (pend ++ [a]) part c hpart hc
      simp only [List.mem_append, List.mem_cons, List.mem_singleton] at h ⊢
      tauto
    · rw [if_neg hws] at hpart
      by_cases h2 : 2 ≤ nlCount pend
      · rw [if_pos h2] at hpart
        rcases List.mem_cons.mp hpart with rfl | hpart'
        · rcases List.mem_append.mp hc with h1 | h1
          · simp [h1]
          · simp [mem_of_mem_preNl h1]
        · have h := ih (postNl pend ++ [a]) [] part c hpart' hc
          simp only [List.mem_append, List.mem_cons, List.mem_singleton,
            List.not_mem_nil, or_false] at h ⊢
          rcases h with (h | rfl) | h
          · exact Or.inl (Or.inr (mem_of_mem_postNl h))
          · exact Or.inr (Or.inl rfl)
          · exact Or.inr (Or.inr h)
      · rw [if_neg h2] at hpart
        have h := ih (cur ++ pend ++ [a]) [] part c hpart hc
        simp only [List.mem_append, List.mem_cons, List.mem_singleton,
          List.not_mem_nil, or_false] at h ⊢
        tauto

theorem splitGo_exists_part :
    ∀ (l cur pend : List Char),
      ((∃ c ∈ cur, ¬ isWS c) ∨ (∃ c ∈ l, ¬ isWS c)) →
      (∀ c ∈ pend, isWS c) →
      ∃ part ∈ splitGo cur pend l, trim part ≠ [] := by
  intro l
  induction l with
  | nil =>
    intro cur pend h hpend
    rcases h with ⟨c, hc, hcw⟩ | ⟨c, hc, -⟩
    · rw [splitGo]
      by_cases h2 : 2 ≤ nlCount pend
      · rw [if_pos h2]
        refine ⟨cur ++ preNl pend, List.mem_cons_self _ _, ?_⟩
        exact trim_ne_nil_of_mem (List.mem_append.mpr (Or.inl hc)) hcw
      · rw [if_neg h2]
        refine ⟨cur ++ pend, List.mem_cons_self _ _, ?_⟩
        exact trim_ne_nil_of_mem (List.mem_append.mpr (Or.inl hc)) hcw
    · cases hc
  | cons a t ih =>
    intro cur pend h hpend
    rw [splitGo]
    by_cases hws : isWS a
    · rw [if_pos hws]
      refine ih cur (pend ++ [a]) ?_ ?_
      · rcases h with h1 | ⟨c, hc, hcw⟩
        · exact Or.inl h1
        · rcases List.mem_cons.mp hc with rfl | hc'
          · exact absurd hws hcw
          · exact Or.inr ⟨c, hc', hcw⟩
      · intro c hc
        rcases List.mem_append.mp hc with h1 | h1
        · exact hpend c h1
        · rcases List.mem_singleton.mp h1 with rfl
          exact hws
    · rw [if_neg hws]
      by_cases h2 : 2 ≤ nlCount pend
      · rw [if_pos h2]
        obtain ⟨part, hmem, hne⟩ := ih (postNl pend ++ [a]) []
          (Or.inl ⟨a, List.mem_append.mpr (Or.inr (List.mem_singleton.mpr rfl)), hws⟩)
          (by intro c hc; cases hc)
        exact ⟨part, List.mem_cons_of_mem _ hmem, hne⟩
      · rw [if_neg h2]
        exact ih (cur ++ pend ++ [a]) []
          (Or.inl ⟨a, by simp, hws⟩)
          (by intro c hc; cases hc)

theorem splitGo_normParts_le :
    ∀ (l cur pend : List Char), (∀ c ∈ pend, isWS c) →
      (normParts (splitGo cur pend l)).length ≤ (trim ((cur ++ pend) ++ l)).length := by
  intro l
  induction l with
  | nil =>
    intro cur pend hpend
    rw [splitGo]
    by_cases h2 : 2 ≤ nlCount pend
    · rw [if_pos h2]
      have hnl : '\n' ∈ pend := mem_nl_of_nlCount (by omega)
      have hd := pend_decomp hnl
      have hBall : ∀ c ∈ postNl pend, isWS c :=
        fun c hc => hpend c (mem_of_mem_postNl hc)
      have htB : trim (postNl pend) = [] := trim_eq_nil_iff.mpr hBall
      have hmidall : ∀ c ∈ midNl pend ++ postNl pend, isWS c := by
        intro c hc
        rcases List.mem_append.mp hc with h1 | h1
        · exact hpend c (mem_of_mem_midNl h1)
        · exact hpend c (mem_of_mem_postNl h1)
      have htext : trim ((cur ++ pend) ++ []) = trim (cur ++ preNl pend) := by
        rw [List.append_nil]
        conv_lhs => rw [← hd]
        rw [show cur ++ (preNl pend ++ (midNl pend ++ postNl pend)) =
            (cur ++ preNl pend) ++ (midNl pend ++ postNl pend) by simp]
        exact trim_append_allws hmidall
      by_cases hA : trim (cur ++ preNl pend) = []
      · rw [normParts_cons_of_nil hA, normParts_cons_of_nil htB, normParts_nil]
        simp
      · rw [normParts_cons_of_ne_nil hA
          (by rw [normParts_cons_of_nil htB, normParts_nil]), htext]
    · rw [if_neg h2, List.append_nil]
      by_cases hA : trim (cur ++ pend) = []
      · rw [normParts_cons_of_nil hA, normParts_nil]
        simp
      · rw [normParts_cons_of_ne_nil hA normParts_nil]
  | cons a t ih =>
    intro cur pend hpend
    rw [splitGo]
    by_cases hws : isWS a
    · rw [if_pos hws]
      have hpend' : ∀ c ∈ pend ++ [a], isWS c := by
        intro c hc
        rcases List.mem_append.mp hc with h1 | h1
        · exact hpend c h1
        · rcases List.mem_singleton.mp h1 with rfl
          exact hws
      have h := ih cur (pend ++ [a]) hpend'
      have heq : (cur ++ (pend ++ [a])) ++ t = (cur ++ pend) ++ a :: t := by simp
      rwa [heq] at h
    · rw [if_neg hws]
      by_cases h2 : 2 ≤ nlCount pend
      · rw [if_pos h2]
        have hnl : '\n' ∈ pend := mem_nl_of_nlCount (by omega)
        have hd := pend_decomp hnl
        have hmid : ∀ c ∈ midNl pend, isWS c :=
          fun c hc => hpend c (mem_of_mem_midNl hc)
        have ihr := ih (postNl pend ++ [a]) [] (by intro c hc; cases hc)
        have heqB : ((postNl pend ++ [a]) ++ []) ++ t = postNl pend ++ a :: t := by
          simp
        rw [heqB] at ihr
        have hBne : trim (postNl pend ++ a :: t) ≠ [] :=
          trim_ne_nil_of_mem
            (List.mem_append.mpr (Or.inr (List.mem_cons_self a t))) hws
        have htext : (cur ++ pend) ++ a :: t =
            ((cur ++ preNl pend) ++ midNl pend) ++ (postNl pend ++ a :: t) := by
          conv_lhs => rw [← hd]
          simp
        by_cases hA : trim (cur ++ preNl pend) = []
        · rw [normParts_cons_of_nil hA, htext]
          have hAall : ∀ c ∈ (cur ++ preNl pend) ++ midNl pend, isWS c := by
            intro c hc
            rcases List.mem_append.mp hc with h1 | h1
            · exact trim_eq_nil_iff.mp hA c h1
            · exact hmid c h1
          rw [trim_allws_append hAall]
          exact ihr
        · by_cases hR : normParts (splitGo (postNl pend ++ [a]) [] t) = []
          · rw [normParts_cons_of_ne_nil hA hR, htext]
            calc (trim (cur ++ preNl pend)).length
                ≤ (trim ((cur ++ preNl pend) ++
                    (midNl pend ++ (postNl pend ++ a :: t)))).length :=
                  trim_mono_append
              _ = (trim (((cur ++ preNl pend) ++ midNl pend) ++
                    (postNl pend ++ a :: t))).length := by
                  simp [List.append_assoc]
          · rw [normParts_cons_of_ne hA hR, htext]
            have hmeq := @trim_mid_eq (cur ++ preNl pend) (midNl pend)
              (postNl pend ++ a :: t) hA hBne
            rw [hmeq]
            have e1 : (trim (cur ++ preNl pend)).length ≤
                (trimLeft (cur ++ preNl pend)).length := trimRight_length_le _
            have e2 : 2 ≤ (midNl pend).length := two_le_midNl_length h2
            have e3 : (normParts (splitGo (postNl pend ++ [a]) [] t)).length ≤
                (trimRight (postNl pend ++ a :: t)).length :=
              le_trans ihr (trim_le_trimRight _)
            simp only [List.length_append, sep2, List.length_cons, List.length_nil]
            omega
      · rw [if_neg h2]
        have h := ih (cur ++ pend ++ [a]) [] (by intro c hc; cases hc)
        have heq : ((cur ++ pend ++ [a]) ++ []) ++ t = (cur ++ pend) ++ a :: t := by
          simp
        rwa [heq] at h

/-! ### Properties of the sentence splitter -/

theorem mem_splitIntoSentences {t s : List Char}
    (h : s ∈ splitIntoSentences t) : trim s = s ∧ s ≠ [] := by
  unfold splitIntoSentences at h
  have h1 := List.mem_filter.mp h
  obtain ⟨x, hx, rfl⟩ := List.mem_map.mp h1.1
  refine ⟨trim_idem x, ?_⟩
  have h2 := h1.2
  simp only [decide_eq_true_eq] at h2
  intro hc
  rw [hc] at h2
  simp at h2

theorem sentGo_matches_have_term :
    ∀ (l : List Char) (acc : List (List Char)) (pre toks : List Char),
      (∀ m ∈ acc, ∃ c ∈ m, isTerm c) →
      (∀ c ∈ toks, isTerm c) →
      ∀ m ∈ sentGo acc pre toks l, ∃ c ∈ m, isTerm c := by
  intro l
  induction l with
  | nil =>
    intro acc pre toks hacc htoks m hm
    rw [sentGo] at hm
    by_cases hpt : pre ≠ [] ∧ toks ≠ []
    · rw [if_pos hpt] at hm
      rcases List.mem_append.mp hm with h1 | h1
      · exact hacc m h1
      · rcases List.mem_singleton.mp h1 with rfl
        obtain ⟨c, hc⟩ := List.exists_mem_of_ne_nil _ hpt.2
        exact ⟨c, List.mem_append.mpr (Or.inr hc), htoks c hc⟩
    · rw [if_neg hpt] at hm
      exact hacc m hm
  | cons a t ih =>
    intro acc pre toks hacc htoks m hm
    rw [sentGo] at hm
    by_cases ha : isTerm a
    · rw [if_pos ha] at hm
      by_cases hp : pre = []
      · rw [if_pos hp] at hm
        exact ih acc [] [] hacc (by intro c hc; cases hc) m hm
      · rw [if_neg hp] at hm
        refine ih acc pre (toks ++ [a]) hacc ?_ m hm
        intro c hc
        rcases List.mem_append.mp hc with h1 | h1
        · exact htoks c h1
        · rcases List.mem_singleton.mp h1 with rfl
          exact ha
    · rw [if_neg ha] at hm
      by_cases ht : toks = []
      · rw [if_pos ht] at hm
        exact ih acc (pre ++ [a]) [] hacc (by intro c hc; cases hc) m hm
      · rw [if_neg ht] at hm
        refine ih (acc ++ [pre ++ toks]) [a] [] ?_ (by intro c hc; cases hc) m hm
        intro m' hm'
        rcases List.mem_append.mp hm' with h1 | h1
        · exact hacc m' h1
        · rcases List.mem_singleton.mp h1 with rfl
          obtain ⟨c, hc⟩ := List.exists_mem_of_ne_nil _ ht
          exact ⟨c, List.mem_append.mpr (Or.inr hc), htoks c hc⟩

theorem splitIntoSentences_eq (text : List Char) :
    splitIntoSentences text =
      ((if (sentMatches text).flatten.length < text.length then
          (if 0 < (trim (text.drop (sentMatches text).flatten.length)).length then
            sentMatches text ++ [trim (text.drop (sentMatches text).flatten.length)]
          else sentMatches text)
        else sentMatches text).map trim).filter
        (fun s => decide (0 < s.length)) := rfl

theorem splitIntoSentences_ne_nil {t : List Char} (h : trim t ≠ []) :
    splitIntoSentences t ≠ [] := by
  intro hc
  by_cases hm : sentMatches t = []
  · have ht : t ≠ [] := by
      intro h'
      rw [h'] at h
      exact h rfl
    have hlen : 0 < t.length := List.length_pos.mpr ht
    have hpos : 0 < (trim t).length :=
      Nat.pos_of_ne_zero (fun h0 => h (List.length_eq_zero.mp h0))
    rw [splitIntoSentences_eq, hm] at hc
    simp only [List.flatten_nil, List.length_nil, List.drop_zero,
      List.nil_append] at hc
    rw [if_pos hlen, if_pos hpos, List.map_cons, List.map_nil, trim_idem,
      List.filter_cons, if_pos (by simpa using hpos)] at hc
    cases hc
  · obtain ⟨m, ms, hmeq⟩ := List.exists_cons_of_ne_nil hm
    have hm0 : m ∈ sentMatches t := by
      rw [hmeq]
      exact List.mem_cons_self _ _
    have hterm : ∃ c ∈ m, isTerm c :=
      sentGo_matches_have_term t [] [] []
        (by intro x hx; cases hx) (by intro c hc; cases hc) m hm0
    have htm : trim m ≠ [] := by
      obtain ⟨c, hcmem, hct⟩ := hterm
      exact trim_ne_nil_of_mem hcmem (isTerm_not_isWS hct)
    have hmem : trim m ∈ splitIntoSentences t := by
      rw [splitIntoSentences_eq]
      apply List.mem_filter.mpr
      refine ⟨List.mem_map.mpr ⟨m, ?_, rfl⟩, ?_⟩
      · split_ifs
        · exact List.mem_append.mpr (Or.inl hm0)
        · exact hm0
        · exact hm0
      · simpa using Nat.pos_of_ne_zero
          (fun h0 => htm (List.length_eq_zero.mp h0))
    rw [hc] at hmem
    cases hmem

/-! ### Step-unfolding equations for the accumulation loops -/

theorem stepSentence_eq (cs : Nat) (cks : List (List Char)) (sc s : List Char) :
    stepSentence cs (cks, sc) s =
      if (sc ++ ' ' :: s).length ≤ cs then
        (cks, if sc = [] then s else sc ++ ' ' :: s)
      else ((if trim sc = [] then cks else cks ++ [trim sc]), s) := rfl

theorem stepParagraph_eq (cs : Nat) (cks : List (List Char)) (cc p : List Char) :
    stepParagraph cs (cks, cc) p =
      if (cc ++ sep2 ++ trim p).length ≤ cs then
        (cks, if cc = [] then trim p else cc ++ sep2 ++ trim p)
      else if cs < (trim p).length then
        (((splitIntoSentences (trim p)).foldl (stepSentence cs)
            ((if trim cc = [] then cks else cks ++ [trim cc]), [])).1,
         if trim ((splitIntoSentences (trim p)).foldl (stepSentence cs)
            ((if trim cc = [] then cks else cks ++ [trim cc]), [])).2 = [] then []
         else trim ((splitIntoSentences (trim p)).foldl (stepSentence cs)
            ((if trim cc = [] then cks else cks ++ [trim cc]), [])).2)
      else ((if trim cc = [] then cks else cks ++ [trim cc]), trim p) := rfl

/-! ### Invariants of the accumulation loops -/

theorem sentFold_inv (cs : Nat) (SS : List (List Char))
    (hSS : ∀ s ∈ SS, trim s = s ∧ s ≠ []) :
    ∀ (S : List (List Char)), (∀ s ∈ S, s ∈ SS) →
    ∀ (cks : List (List Char)) (sc : List Char),
      (sc = [] ∨ GoodSent SS cs sc) →
      (∀ c ∈ (S.foldl (stepSentence cs) (cks, sc)).1,
        c ∈ cks ∨ GoodSent SS cs c) ∧
      ((S.foldl (stepSentence cs) (cks, sc)).2 = [] ∨
        GoodSent SS cs (S.foldl (stepSentence cs) (cks, sc)).2) ∧
      (S ≠ [] → (S.foldl (stepSentence cs) (cks, sc)).2 ≠ []) := by
  intro S
  induction S with
  | nil =>
    intro _ cks sc hsc
    exact ⟨fun c hc => Or.inl hc, hsc, fun hne => absurd rfl hne⟩
  | cons s S' ih =>
    intro hS cks sc hsc
    have hs : s ∈ SS := hS s (List.mem_cons_self _ _)
    have hS' : ∀ x ∈ S', x ∈ SS := fun x hx => hS x (List.mem_cons_of_mem _ hx)
    obtain ⟨hstrim, hsnil⟩ := hSS s hs
    rw [List.foldl_cons, stepSentence_eq]
    by_cases hcond : (sc ++ ' ' :: s).length ≤ cs
    · rw [if_pos hcond]
      have hsc' : (if sc = [] then s else sc ++ ' ' :: s) = [] ∨
          GoodSent SS cs (if sc = [] then s else sc ++ ' ' :: s) := by
        right
        by_cases hsce : sc = []
        · rw [if_pos hsce]
          exact ⟨hstrim, hsnil, Or.inr hs⟩
        · rw [if_neg hsce]
          rcases hsc with rfl | hgood
          · exact absurd rfl hsce
          refine ⟨?_, by simp, Or.inl hcond⟩
          have := trim_fix_append (m := [' ']) hgood.1 hsce hstrim hsnil
          simpa using this
      obtain ⟨h1, h2, h3⟩ := ih hS' cks _ hsc'
      refine ⟨h1, h2, ?_⟩
      intro _
      rcases Classical.em (S' = []) with rfl | hSne
      · simp only [List.foldl_nil]
        by_cases hsce : sc = []
        · rw [if_pos hsce]
          exact hsnil
        · rw [if_neg hsce]
          simp
      · exact h3 hSne
    · rw [if_neg hcond]
      have hcks' : ∀ c ∈ (if trim sc = [] then cks else cks ++ [trim sc]),
          c ∈ cks ∨ GoodSent SS cs c := by
        intro c hc
        by_cases hsct : trim sc = []
        · rw [if_pos hsct] at hc
          exact Or.inl hc
        · rw [if_neg hsct] at hc
          rcases List.mem_append.mp hc with h1 | h1
          · exact Or.inl h1
          · rcases List.mem_singleton.mp h1 with rfl
            right
            rcases hsc with rfl | hgood
            · exact absurd rfl hsct
            · rw [hgood.1]
              exact hgood
      obtain ⟨h1, h2, h3⟩ := ih hS' _ s (Or.inr ⟨hstrim, hsnil, Or.inr hs⟩)
      refine ⟨fun c hc => ?_, h2, ?_⟩
      · rcases h1 c hc with hmem | hgood
        · exact hcks' c hmem
        · exact Or.inr hgood
      · intro _
        rcases Classical.em (S' = []) with rfl | hSne
        · simpa using hsnil
        · exact h3 hSne

theorem paraFold_inv (cs : Nat) (PP : List (List Char)) :
    ∀ (ps : List (List Char)), (∀ p ∈ ps, p ∈ PP ∧ trim p ≠ []) →
    ∀ (cks : List (List Char)) (cc : List Char),
      (cc = [] ∨ GoodChunk PP cs cc) →
      (∀ c ∈ (ps.foldl (stepParagraph cs) (cks, cc)).1,
        c ∈ cks ∨ GoodChunk PP cs c) ∧
      ((ps.foldl (stepParagraph cs) (cks, cc)).2 = [] ∨
        GoodChunk PP cs (ps.foldl (stepParagraph cs) (cks, cc)).2) ∧
      (ps ≠ [] → (ps.foldl (stepParagraph cs) (cks, cc)).2 ≠ []) := by
  intro ps
  induction ps with
  | nil =>
    intro _ cks cc hcc
    exact ⟨fun c hc => Or.inl hc, hcc, fun hne => absurd rfl hne⟩
  | cons p ps' ih =>
    intro hps cks cc hcc
    obtain ⟨hpPP, hptrim⟩ := hps p (List.mem_cons_self _ _)
    have hps' : ∀ q ∈ ps', q ∈ PP ∧ trim q ≠ [] :=
      fun q hq => hps q (List.mem_cons_of_mem _ hq)
    have htp_fix : trim (trim p) = trim p := trim_idem p
    rw [List.foldl_cons, stepParagraph_eq]
    by_cases hcond : (cc ++ sep2 ++ trim p).length ≤ cs
    · rw [if_pos hcond]
      have hgood' : GoodChunk PP cs (if cc = [] then trim p
          else cc ++ sep2 ++ trim p) := by
        by_cases hce : cc = []
        · rw [if_pos hce]
          refine ⟨htp_fix, hptrim, Or.inl ?_⟩
          rw [hce] at hcond
          simp only [List.nil_append, List.length_append, sep2,
            List.length_cons, List.length_nil] at hcond
          omega
        · rw [if_neg hce]
          rcases hcc with rfl | hgood
          · exact absurd rfl hce
          refine ⟨trim_fix_append hgood.1 hce htp_fix hptrim, by simp [sep2],
            Or.inl hcond⟩
      obtain ⟨h1, h2, h3⟩ := ih hps' cks _ (Or.inr hgood')
      refine ⟨h1, h2, ?_⟩
      intro _
      rcases Classical.em (ps' = []) with rfl | hne
      · simp only [List.foldl_nil]
        exact hgood'.2.1
      · exact h3 hne
    · rw [if_neg hcond]
      have hcks1good : ∀ c ∈ (if trim cc = [] then cks else cks ++ [trim cc]),
          c ∈ cks ∨ GoodChunk PP cs c := by
        intro c hc
        by_cases hct : trim cc = []
        · rw [if_pos hct] at hc
          exact Or.inl hc
        · rw [if_neg hct] at hc
          rcases List.mem_append.mp hc with hcm | hcm
          · exact Or.inl hcm
          · rcases List.mem_singleton.mp hcm with rfl
            right
            rcases hcc with rfl | hgood
            · exact absurd rfl hct
            · rw [hgood.1]
              exact hgood
      by_cases hbig : cs < (trim p).length
      · rw [if_pos hbig]
        have hSSgood : ∀ s ∈ splitIntoSentences (trim p), trim s = s ∧ s ≠ [] :=
          fun s hs => mem_splitIntoSentences hs
        obtain ⟨g1, g2, g3⟩ := sentFold_inv cs (splitIntoSentences (trim p))
          hSSgood (splitIntoSentences (trim p)) (fun s hs => hs)
          (if trim cc = [] then cks else cks ++ [trim cc]) [] (Or.inl rfl)
        have hSne : splitIntoSentences (trim p) ≠ [] :=
          splitIntoSentences_ne_nil (by rw [htp_fix]; exact hptrim)
        have hr2 : ((splitIntoSentences (trim p)).foldl (stepSentence cs)
            ((if trim cc = [] then cks else cks ++ [trim cc]), [])).2 ≠ [] :=
          g3 hSne
        have hr2good : GoodSent (splitIntoSentences (trim p)) cs
            ((splitIntoSentences (trim p)).foldl (stepSentence cs)
              ((if trim cc = [] then cks else cks ++ [trim cc]), [])).2 := by
          rcases g2 with hre | hgood
          · exact absurd hre hr2
          · exact hgood
        have hitf : (if trim ((splitIntoSentences (trim p)).foldl (stepSentence cs)
            ((if trim cc = [] then cks else cks ++ [trim cc]), [])).2 = [] then []
            else trim ((splitIntoSentences (trim p)).foldl (stepSentence cs)
              ((if trim cc = [] then cks else cks ++ [trim cc]), [])).2) =
            ((splitIntoSentences (trim p)).foldl (stepSentence cs)
              ((if trim cc = [] then cks else cks ++ [trim cc]), [])).2 := by
          rw [hr2good.1, if_neg hr2]
        rw [hitf]
        have hcc1good : GoodChunk PP cs
            ((splitIntoSentences (trim p)).foldl (stepSentence cs)
              ((if trim cc = [] then cks else cks ++ [trim cc]), [])).2 :=
          ⟨hr2good.1, hr2good.2.1,
            hr2good.2.2.imp id (fun hmem => ⟨p, hpPP, hmem⟩)⟩
        obtain ⟨h1, h2, h3⟩ := ih hps' _ _ (Or.inr hcc1good)
        refine ⟨fun c hc => ?_, h2, ?_⟩
        · rcases h1 c hc with hmem | hgood
          · rcases g1 c hmem with hmem2 | hgood2
            · exact hcks1good c hmem2
            · exact Or.inr ⟨hgood2.1, hgood2.2.1,
                hgood2.2.2.imp id (fun hm => ⟨p, hpPP, hm⟩)⟩
          · exact Or.inr hgood
        · intro _
          rcases Classical.em (ps' = []) with rfl | hne
          · simp only [List.foldl_nil]
            exact hcc1good.2.1
          · exact h3 hne
      · rw [if_neg hbig]
        have hgood' : GoodChunk PP cs (trim p) :=
          ⟨htp_fix, hptrim, Or.inl (by omega)⟩
        obtain ⟨h1, h2, h3⟩ := ih hps' _ _ (Or.inr hgood')
        refine ⟨fun c hc => ?_, h2, ?_⟩
        · rcases h1 c hc with hmem | hgood
          · exact hcks1good c hmem
          · exact Or.inr hgood
        · intro _
          rcases Classical.em (ps' = []) with rfl | hne
          · simp only [List.foldl_nil]
            exact hptrim
          · exact h3 hne

/-! ### Properties of the pre-overlap chunk list -/

theorem baseChunks_eq (text : List Char) (cs : Nat) :
    baseChunks text cs =
      if trim ((paragraphsOf text).foldl (stepParagraph cs) ([], [])).2 = [] then
        ((paragraphsOf text).foldl (stepParagraph cs) ([], [])).1
      else
        ((paragraphsOf text).foldl (stepParagraph cs) ([], [])).1 ++
          [trim ((paragraphsOf text).foldl (stepParagraph cs) ([], [])).2] := rfl

theorem chunkText_eq (text : List Char) (cs os : Nat) :
    chunkText text cs os =
      if (trim text).length = 0 then []
      else if 0 < os ∧ 1 < (baseChunks text cs).length then
        addOverlapToChunks (baseChunks text cs) os
      else (baseChunks text cs).filter (fun c => decide (0 < (trim c).length)) :=
  rfl

theorem mem_paragraphsOf {text p : List Char} (hp : p ∈ paragraphsOf text) :
    p ∈ paragraphsOf text ∧ trim p ≠ [] := by
  refine ⟨hp, ?_⟩
  have hq := (List.mem_filter.mp hp).2
  simp only [decide_eq_true_eq] at hq
  intro h0
  rw [h0] at hq
  simp at hq

theorem paragraphsOf_nil {text : List Char} (h : trim text = []) :
    paragraphsOf text = [] := by
  unfold paragraphsOf
  rw [List.filter_eq_nil_iff]
  intro p hp
  simp only [decide_eq_true_eq, not_lt, Nat.le_zero, List.length_eq_zero]
  apply trim_eq_nil_iff.mpr
  intro c hcp
  have hcl := splitGo_mem_chars text [] [] p c hp hcp
  simp only [List.nil_append] at hcl
  exact trim_eq_nil_iff.mp h c hcl

theorem paragraphsOf_ne_nil {text : List Char} (h : trim text ≠ []) :
    paragraphsOf text ≠ [] := by
  obtain ⟨c, hcmem, hcw⟩ := exists_nonws_of_trim_ne h
  obtain ⟨part, hpmem, hptrim⟩ := splitGo_exists_part text [] []
    (Or.inr ⟨c, hcmem, hcw⟩) (by intro x hx; cases hx)
  have hpf : part ∈ paragraphsOf text := by
    apply List.mem_filter.mpr
    refine ⟨hpmem, ?_⟩
    simp only [decide_eq_true_eq]
    exact Nat.pos_of_ne_zero (fun h0 => hptrim (List.length_eq_zero.mp h0))
  intro h0
  rw [h0] at hpf
  cases hpf

theorem baseChunks_good {text : List Char} {cs : Nat} {c : List Char}
    (hc : c ∈ baseChunks text cs) : GoodChunk (paragraphsOf text) cs c := by
  obtain ⟨h1, h2, -⟩ := paraFold_inv cs (paragraphsOf text) (paragraphsOf text)
    (fun p hp => mem_paragraphsOf hp) [] [] (Or.inl rfl)
  rw [baseChunks_eq] at hc
  by_cases hres : trim ((paragraphsOf text).foldl (stepParagraph cs) ([], [])).2 = []
  · rw [if_pos hres] at hc
    rcases h1 c hc with hmem | hgood
    · cases hmem
    · exact hgood
  · rw [if_neg hres] at hc
    rcases List.mem_append.mp hc with hcm | hcm
    · rcases h1 c hcm with hmem | hgood
      · cases hmem
      · exact hgood
    · rcases List.mem_singleton.mp hcm with rfl
      rcases h2 with he | hgood
      · rw [he] at hres
        exact absurd rfl hres
      · rw [hgood.1]
        exact hgood

theorem baseChunks_ne_nil {text : List Char} {cs : Nat} (h : trim text ≠ []) :
    baseChunks text cs ≠ [] := by
  obtain ⟨-, h2, h3⟩ := paraFold_inv cs (paragraphsOf text) (paragraphsOf text)
    (fun p hp => mem_paragraphsOf hp) [] [] (Or.inl rfl)
  have hccne := h3 (paragraphsOf_ne_nil h)
  rw [baseChunks_eq]
  by_cases hres : trim ((paragraphsOf text).foldl (stepParagraph cs) ([], [])).2 = []
  · exfalso
    rcases h2 with he | hgood
    · exact hccne he
    · rw [hgood.1] at hres
      exact hccne hres
  · rw [if_neg hres]
    simp

theorem baseChunks_nil {text : List Char} {cs : Nat} (h : trim text = []) :
    baseChunks text cs = [] := by
  rw [baseChunks_eq, paragraphsOf_nil h]
  rfl

theorem baseChunks_filter_self (text : List Char) (cs : Nat) :
    (baseChunks text cs).filter (fun c => decide (0 < (trim c).length)) =
      baseChunks text cs := by
  apply filter_eq_self_of_all
  intro c hc
  have hg := baseChunks_good hc
  simp only [decide_eq_true_eq]
  rw [hg.1]
  exact List.length_pos.mpr hg.2.1

/-! ### Properties of the overlap pass -/

theorem overlapStart_toNat (n m : Nat) : (overlapStart n m).toNat = n - m := by
  unfold overlapStart
  rcases Nat.le_total m n with h | h
  · rw [max_eq_right (by omega : (0 : Int) ≤ (n : Int) - (m : Int))]
    omega
  · rw [max_eq_left (by omega : (n : Int) - (m : Int) ≤ 0)]
    omega

theorem jsSubstring_overlap (prev : List Char) (os : Nat) :
    jsSubstring prev (overlapStart prev.length os) =
      prev.drop (prev.length - os) := by
  rw [jsSubstring, overlapStart_toNat]

theorem overlapGo_length (os : Nat) :
    ∀ (l : List (List Char)) (prev : List Char),
      (overlapGo os prev l).length = l.length := by
  intro l
  induction l with
  | nil => intro prev; rfl
  | cons c t ih =>
    intro prev
    rw [overlapGo]
    simp [ih]

theorem overlapGo_getD (os : Nat) :
    ∀ (l : List (List Char)) (prev : List Char) (i : Nat), i < l.length →
      (overlapGo os prev l).getD i [] =
        (if i = 0 then prev else l.getD (i - 1) []).drop
          ((if i = 0 then prev else l.getD (i - 1) []).length - os) ++
          sep2 ++ l.getD i [] := by
  intro l
  induction l with
  | nil =>
    intro prev i h
    simp at h
  | cons c t ih =>
    intro prev i h
    rw [overlapGo]
    cases i with
    | zero =>
      simp only [List.getD_cons_zero]
      rw [jsSubstring_overlap]
      simp
    | succ j =>
      simp only [List.getD_cons_succ]
      rw [ih c j (by simpa using h)]
      cases j with
      | zero => simp
      | succ k => simp

theorem overlapGo_mem (os : Nat) :
    ∀ (l : List (List Char)) (prev x : List Char), x ∈ overlapGo os prev l →
      ∃ b ∈ l, ∃ ov : List Char, ov.length ≤ os ∧ x = ov ++ sep2 ++ b := by
  intro l
  induction l with
  | nil =>
    intro prev x hx
    cases hx
  | cons c t ih =>
    intro prev x hx
    rw [overlapGo] at hx
    rcases List.mem_cons.mp hx with rfl | hx'
    · refine ⟨c, List.mem_cons_self _ _,
        jsSubstring prev (overlapStart prev.length os), ?_, rfl⟩
      rw [jsSubstring_overlap, List.length_drop]
      omega
    · obtain ⟨b, hb, ov, hov, rfl⟩ := ih c x hx'
      exact ⟨b, List.mem_cons_of_mem _ hb, ov, hov, rfl⟩

theorem addOverlap_length (chunks : List (List Char)) (os : Nat) :
    (addOverlapToChunks chunks os).length = chunks.length := by
  cases chunks with
  | nil => rfl
  | cons c t =>
    show (c :: overlapGo os c t).length = (c :: t).length
    simp [overlapGo_length]

theorem addOverlap_spec (bs : List (List Char)) (os : Nat) (hne : bs ≠ []) :
    (addOverlapToChunks bs os).getD 0 [] = bs.getD 0 [] ∧
    ∀ i, i + 1 < bs.length →
      (addOverlapToChunks bs os).getD (i + 1) [] =
        (bs.getD i []).drop ((bs.getD i []).length - os) ++ sep2 ++
          bs.getD (i + 1) [] := by
  obtain ⟨c, t, rfl⟩ := List.exists_cons_of_ne_nil hne
  refine ⟨rfl, ?_⟩
  intro i hi
  show (c :: overlapGo os c t).getD (i + 1) [] = _
  rw [List.getD_cons_succ, overlapGo_getD os t c i (by simpa using hi)]
  cases i with
  | zero => simp
  | succ k => simp

theorem addOverlap_mem {bs : List (List Char)} {os : Nat} {x : List Char}
    (hx : x ∈ addOverlapToChunks bs os) :
    ∃ b ∈ bs, x = b ∨ ∃ ov : List Char, ov.length ≤ os ∧ x = ov ++ sep2 ++ b := by
  cases bs with
  | nil => cases hx
  | cons c t =>
    rcases List.mem_cons.mp hx with rfl | hx'
    · exact ⟨_, List.mem_cons_self _ _, Or.inl rfl⟩
    · obtain ⟨b, hb, ov, hov, rfl⟩ := overlapGo_mem os t c x hx'
      exact ⟨b, List.mem_cons_of_mem _ hb, Or.inr ⟨ov, hov, rfl⟩⟩

/-! ### The checked variant never faults -/

theorem substringChecked_clamped (prev : List Char) (os : Nat) :
    substringChecked prev (overlapStart prev.length os) =
      some (jsSubstring prev (overlapStart prev.length os)) := by
  unfold substringChecked jsSubstring
  rw [if_pos]
  constructor
  · exact le_max_left _ _
  · apply max_le
    · exact Int.natCast_nonneg _
    · omega

theorem overlapGoChecked_eq (os : Nat) :
    ∀ (l : List (List Char)) (prev : List Char),
      overlapGoChecked os prev l = some (overlapGo os prev l) := by
  intro l
  induction l with
  | nil => intro prev; rfl
  | cons c t ih =>
    intro prev
    show (match substringChecked prev (overlapStart prev.length os) with
      | none => none
      | some ov =>
        match overlapGoChecked os c t with
        | none => none
        | some r => some ((ov ++ sep2 ++ c) :: r)) = _
    rw [substringChecked_clamped, ih]
    rfl

theorem addOverlapChecked_eq (chunks : List (List Char)) (os : Nat) :
    addOverlapChecked chunks os = some (addOverlapToChunks chunks os) := by
  cases chunks with
  | nil => rfl
  | cons c t =>
    show (match overlapGoChecked os c t with
      | none => none
      | some r => some (c :: r)) = _
    rw [overlapGoChecked_eq]
    rfl

theorem chunkTextChecked_eqn (text : List Char) (cs os : Nat) :
    chunkTextChecked text cs os =
      if (trim text).length = 0 then some []
      else if 0 < os ∧ 1 < (baseChunks text cs).length then
        addOverlapChecked (baseChunks text cs) os
      else some ((baseChunks text cs).filter
        (fun c => decide (0 < (trim c).length))) := rfl

/-! ### The paragraph loop never flushes on small inputs -/

theorem joinAcc_cons (cc p : List Char) (ps : List (List Char)) :
    joinAcc cc (p :: ps) =
      joinAcc (if cc = [] then trim p else cc ++ sep2 ++ trim p) ps := rfl

theorem joinAcc_length_le : ∀ (ps : List (List Char)) (x : List Char),
    x.length ≤ (joinAcc x ps).length := by
  intro ps
  induction ps with
  | nil => intro x; exact le_refl _
  | cons p ps' ih =>
    intro x
    rw [joinAcc_cons]
    refine le_trans ?_ (ih _)
    by_cases hx : x = []
    · rw [if_pos hx, hx]
      simp
    · rw [if_neg hx]
      simp only [List.length_append]
      omega

theorem if_nil_nil {A : Type} (a b : A) :
    (if ([] : List Char) = [] then a else b) = a := if_pos rfl

theorem paraFold_no_flush (cs : Nat) :
    ∀ (ps : List (List Char)) (cks : List (List Char)) (cc : List Char),
      (joinAcc cc ps).length ≤ cs →
      ps.foldl (stepParagraph cs) (cks, cc) = (cks, joinAcc cc ps) := by
  intro ps
  induction ps with
  | nil =>
    intro cks cc _
    rfl
  | cons p ps' ih =>
    intro cks cc hlen
    rw [List.foldl_cons, stepParagraph_eq]
    by_cases hce : cc = []
    · subst hce
      rw [joinAcc_cons, if_nil_nil] at hlen
      have htp_le : (trim p).length ≤ cs :=
        le_trans (joinAcc_length_le ps' (trim p)) hlen
      by_cases hcond : (([] : List Char) ++ sep2 ++ trim p).length ≤ cs
      · rw [if_pos hcond, if_nil_nil, ih cks (trim p) hlen, joinAcc_cons,
          if_nil_nil]
      · rw [if_neg hcond, if_neg (by omega : ¬ cs < (trim p).length),
          if_pos (show trim ([] : List Char) = [] from rfl),
          ih cks (trim p) hlen, joinAcc_cons, if_nil_nil]
    · rw [joinAcc_cons, if_neg hce] at hlen
      have hcond : (cc ++ sep2 ++ trim p).length ≤ cs :=
        le_trans (joinAcc_length_le ps' _) hlen
      rw [if_pos hcond, if_neg hce, ih cks (cc ++ sep2 ++ trim p) hlen,
        joinAcc_cons, if_neg hce]

/-! ### Joining the trimmed paragraphs -/

theorem joinSep2_glue (a b : List Char) (L : List (List Char)) :
    joinSep2 ((a ++ sep2 ++ b) :: L) = a ++ sep2 ++ joinSep2 (b :: L) := by
  cases L with
  | nil => rfl
  | cons q qs =>
    show (a ++ sep2 ++ b) ++ sep2 ++ joinSep2 (q :: qs) =
      a ++ sep2 ++ (b ++ sep2 ++ joinSep2 (q :: qs))
    simp [List.append_assoc]

theorem joinAcc_eq_joinSep2 : ∀ (ps : List (List Char)) (x : List Char),
    x ≠ [] → joinAcc x ps = joinSep2 (x :: ps.map trim) := by
  intro ps
  induction ps with
  | nil => intro x _; rfl
  | cons p ps' ih =>
    intro x hx
    rw [joinAcc_cons, if_neg hx, ih _ (by simp [sep2]), List.map_cons,
      joinSep2_glue]
    rfl

theorem joinAcc_nil_eq (ps : List (List Char))
    (h : ∀ p ∈ ps, trim p ≠ []) :
    joinAcc [] ps = joinSep2 (ps.map trim) := by
  cases ps with
  | nil => rfl
  | cons p ps' =>
    rw [joinAcc_cons, if_nil_nil,
      joinAcc_eq_joinSep2 ps' (trim p) (h p (List.mem_cons_self _ _)),
      List.map_cons]

theorem filter_map_trim (L : List (List Char)) :
    (L.map trim).filter (fun s => decide (s ≠ [])) =
      (L.filter (fun p => decide (0 < (trim p).length))).map trim := by
  induction L with
  | nil => rfl
  | cons p L' ih =>
    rw [List.map_cons, List.filter_cons, List.filter_cons]
    by_cases h : trim p = []
    · rw [if_neg (by simp [h]), if_neg (by simp [h]), ih]
    · rw [if_pos (by simpa using h),
        if_pos (by simp [Nat.pos_of_ne_zero
          (fun h0 => h (List.length_eq_zero.mp h0))]),
        List.map_cons, ih]

theorem normParts_eq_paragraphs (text : List Char) :
    normParts (splitSep text) = joinSep2 ((paragraphsOf text).map trim) := by
  unfold normParts paragraphsOf
  rw [filter_map_trim]

theorem paragraphs_join_le (text : List Char) :
    (joinSep2 ((paragraphsOf text).map trim)).length ≤ (trim text).length := by
  rw [← normParts_eq_paragraphs]
  have h := splitGo_normParts_le text [] [] (by intro c hc; cases hc)
  simpa using h

theorem joinSep2_trim_fix : ∀ (L : List (List Char)), L ≠ [] →
    (∀ x ∈ L, trim x = x ∧ x ≠ []) →
    trim (joinSep2 L) = joinSep2 L ∧ joinSep2 L ≠ [] := by
  intro L
  induction L with
  | nil => intro h _; exact absurd rfl h
  | cons x L' ih =>
    intro _ hall
    obtain ⟨hx, hxn⟩ := hall x (List.mem_cons_self _ _)
    cases L' with
    | nil => exact ⟨hx, hxn⟩
    | cons y L'' =>
      obtain ⟨hj, hjn⟩ := ih (by simp)
        (fun z hz => hall z (List.mem_cons_of_mem _ hz))
      constructor
      · show trim (x ++ sep2 ++ joinSep2 (y :: L'')) = x ++ sep2 ++ joinSep2 (y :: L'')
        exact trim_fix_append hx hxn hj hjn
      · show x ++ sep2 ++ joinSep2 (y :: L'') ≠ []
        simp [sep2]

/-! ### Claim theorems -/

/-- C4: `chunkText text chunkSize overlapSize` returns the empty
sequence if and only if `text` is empty or consists entirely of
whitespace (its trim is empty); in particular any text containing a
non-whitespace character yields at least one segment. -/
theorem chunk_empty_iff (text : List Char) (cs os : Nat) :
    chunkText text cs os = [] ↔ trim text = [] := by
  rw [chunkText_eq]
  by_cases h : (trim text).length = 0
  · rw [if_pos h]
    simp [List.length_eq_zero.mp h]
  · rw [if_neg h]
    have htne : trim text ≠ [] := fun h0 => h (by rw [h0]; rfl)
    have hbne : baseChunks text cs ≠ [] := baseChunks_ne_nil htne
    constructor
    · intro hc
      exfalso
      by_cases h2 : 0 < os ∧ 1 < (baseChunks text cs).length
      · rw [if_pos h2] at hc
        have hlen := addOverlap_length (baseChunks text cs) os
        rw [hc] at hlen
        simp only [List.length_nil] at hlen
        omega
      · rw [if_neg h2, baseChunks_filter_self] at hc
        exact hbne hc
    · intro hc
      exact absurd hc htne

/-- C4 witness: the theorem instantiated at a whitespace-only input. -/
theorem chunk_empty_iff_witness :
    (chunkText "   \n\n  ".toList 5 5 = [] ↔ trim "   \n\n  ".toList = []) :=
  chunk_empty_iff "   \n\n  ".toList 5 5

/-- C6: `chunkText` never faults: the variant in which every substring
access is bounds-checked (failing when the start index would lie
outside the string) returns `some` of the plain result for EVERY input,
including the empty string and `overlapSize ≥ chunkSize`; the clamped
overlap start index `max 0 (prev.length - overlapSize)` is always in
range. -/
theorem chunkText_never_faults (text : List Char) (cs os : Nat) :
    chunkTextChecked text cs os = some (chunkText text cs os) := by
  rw [chunkTextChecked_eqn, chunkText_eq]
  by_cases h : (trim text).length = 0
  · rw [if_pos h, if_pos h]
  · rw [if_neg h, if_neg h]
    by_cases h2 : 0 < os ∧ 1 < (baseChunks text cs).length
    · rw [if_pos h2, if_pos h2, addOverlapChecked_eq]
    · rw [if_neg h2, if_neg h2]

/-- C9: `chunkText` is a deterministic pure function of its three
arguments: calls with equal arguments return equal segment lists (the
embedding is a total function with no state, so the observable result
depends on nothing else). -/
theorem chunkText_deterministic (t1 t2 : List Char) (c1 c2 o1 o2 : Nat)
    (h1 : t1 = t2) (h2 : c1 = c2) (h3 : o1 = o2) :
    chunkText t1 c1 o1 = chunkText t2 c2 o2 := by
  subst h1
  subst h2
  subst h3
  rfl

/-- C9 witness: determinism at a concrete call. -/
theorem chunkText_deterministic_witness :
    "ab".toList = "ab".toList ∧
    chunkText "ab".toList 5 1 = chunkText "ab".toList 5 1 :=
  ⟨rfl, chunkText_deterministic "ab".toList "ab".toList 5 5 1 1 rfl rfl rfl⟩

/-- C3: evaluation at the failing input `".ab."` with `chunkSize = 3`,
`overlapSize = 0`.  The sentence-splitter remainder offset
(`sentences.join('').length`) miscounts when matches skip leading
terminal punctuation: the produced chunks are `["ab.", "."]`, whose
concatenated non-whitespace content is `"ab.."`, while the input's
non-whitespace content is `".ab."` — the leading period is dropped and
the final period duplicated, so content is NOT preserved in order. -/
theorem chunk_drops_leading_terminal :
    (chunkText ".ab.".toList 3 0).flatten.filter (fun c => !(isWS c)) =
      "ab..".toList ∧
    ".ab.".toList.filter (fun c => !(isWS c)) = ".ab.".toList ∧
    "ab..".toList ≠ ".ab.".toList := by
  refine ⟨by decide, by decide, by decide⟩

/-- C7: evaluation at the failing input.  From the single paragraph
`"....a.b."` with `chunkSize = 3`, `overlapSize = 0`, the chunker
produces the segment `"a.b."` (the splitter's faulty remainder), and
re-chunking that segment with the same parameters splits it into
`["a.", "b."]` instead of returning it unchanged: re-chunking is not
idempotent. -/
theorem chunk_rechunk_splits :
    chunkText "....a.b.".toList 3 0 =
      ["a.".toList, "b.".toList, "a.b.".toList] ∧
    chunkText "a.b.".toList 3 0 = ["a.".toList, "b.".toList] ∧
    chunkText "a.b.".toList 3 0 ≠ ["a.b.".toList] := by
  refine ⟨by decide, by decide, by decide⟩

/-- Unfolding equation for `searchSimilarDocuments`. -/
theorem searchSimilarDocuments_eqn (rows : List DocRow) (limit : Nat)
    (threshold : Rat) :
    searchSimilarDocuments rows limit threshold =
      if 0 < (((rows.filter (fun r => decide (threshold < r.similarity))).take
          limit).map (fun r => SearchHit.mk r.id r.similarity r.content)).length
      then
        ((rows.filter (fun r => decide (threshold < r.similarity))).take
          limit).map (fun r => SearchHit.mk r.id r.similarity r.content)
      else (rows.take limit).map
        (fun r => SearchHit.mk r.id r.similarity r.content) := rfl

/-- Unfolding equation for `generateRAGAnswer`. -/
theorem generateRAGAnswer_eqn (rows : List DocRow) (ms : Nat)
    (llm : List Char) :
    generateRAGAnswer rows ms llm =
      if (searchSimilarDocuments rows ms ragThreshold).length = 0 then
        { answer := noRelevantInfoMessage, sources := [] }
      else
        { answer := if llm = [] then genericErrorMessage else llm,
          sources := (searchSimilarDocuments rows ms ragThreshold).map
            (fun h => RagSource.mk h.id h.score h.text (previewOf h.text)) } :=
  rfl

/-- C8 counterexample: a store holding one document whose similarity
(0.1) lies below the threshold (0.3).  The primary query returns no
match above the threshold, yet `generateRAGAnswer` does NOT return the
"no relevant information" answer with an empty source list: the
threshold-free retry of `searchSimilarDocuments` returns the
below-threshold row and it is used as a source. -/
theorem rag_below_threshold_used :
    (([⟨1, 1/10, "x".toList⟩] : List DocRow).filter
      (fun r => decide (ragThreshold < r.similarity))) = [] ∧
    ¬ ((generateRAGAnswer [⟨1, 1/10, "x".toList⟩] 3 "ans".toList).answer =
        noRelevantInfoMessage ∧
      (generateRAGAnswer [⟨1, 1/10, "x".toList⟩] 3 "ans".toList).sources =
        []) := by
  have hfilter : (([⟨1, 1/10, "x".toList⟩] : List DocRow).filter
      (fun r => decide (ragThreshold < r.similarity))) = [] := by
    rw [List.filter_cons, if_neg ?hne]
    · rfl
    case hne =>
      simp only [decide_eq_true_eq]
      show ¬ (ragThreshold < (1 : Rat) / 10)
      norm_num [ragThreshold]
  have hsearch : searchSimilarDocuments [⟨1, 1/10, "x".toList⟩] 3
      ragThreshold = [⟨1, 1/10, "x".toList⟩] := by
    rw [searchSimilarDocuments_eqn, hfilter]
    rfl
  refine ⟨hfilter, ?_⟩
  intro hcontra
  rw [generateRAGAnswer_eqn, hsearch] at hcontra
  simp at hcontra

/-- C8 amended: when the search returns no rows AT ALL (the primary
thresholded query finds nothing and the threshold-free retry also
returns nothing, i.e. the store is empty), the answer-generation flow
does not report an error: it returns the fixed "no relevant
information" answer with an empty source list. -/
theorem rag_empty_search_no_info (rows : List DocRow) (ms : Nat)
    (llm : List Char)
    (h : searchSimilarDocuments rows ms ragThreshold = []) :
    generateRAGAnswer rows ms llm =
      { answer := noRelevantInfoMessage, sources := [] } := by
  rw [generateRAGAnswer_eqn, h]
  rfl

/-- C8 witness: the amended theorem at the empty store. -/
theorem rag_empty_search_no_info_witness :
    searchSimilarDocuments [] 3 ragThreshold = [] ∧
    generateRAGAnswer [] 3 "q".toList =
      { answer := noRelevantInfoMessage, sources := [] } :=
  ⟨by decide, rag_empty_search_no_info [] 3 "q".toList (by decide)⟩

/-- C10 counterexample: with input `"ab cd\n\nxy"`, `chunkSize = 5`,
`overlapSize = 3`, the second returned segment is `" cd\n\nxy"`, which
begins with the whitespace copied from the middle of the previous
chunk: returned segments are NOT all free of leading whitespace. -/
theorem chunk_overlap_leading_ws :
    " cd\n\nxy".toList ∈ chunkText "ab cd\n\nxy".toList 5 3 ∧
    trim " cd\n\nxy".toList ≠ " cd\n\nxy".toList := by
  refine ⟨by decide, by decide⟩

/-- C1 counterexample: with input `"....a.b."`, `chunkSize = 3`,
`overlapSize = 0`, the returned segment `"a.b."` exceeds the bound AND
contains internal terminal punctuation at which a split would be
possible — it is the sentence splitter's (faulty) remainder, not a
run-on sentence free of internal terminal punctuation. -/
theorem chunk_oversized_internal_term :
    "a.b.".toList ∈ chunkText "....a.b.".toList 3 0 ∧
    3 < ("a.b.".toList).length ∧
    (("a.b.".toList.dropWhile (fun c => !(isTerm c))).dropWhile
      (fun c => isTerm c)) ≠ [] := by
  refine ⟨by decide, by decide, by decide⟩

/-- C1 amended: every segment returned by `chunkText`, after removing
its prepended overlap prefix (at most `overlapSize` characters joined
by a blank line), is a pre-overlap chunk that either has length at most
`chunkSize` or is a single sentence exactly as emitted by the sentence
splitter for one of the input's paragraphs (such a sentence is emitted
whole; because of the splitter's remainder computation it may itself
contain internal terminal punctuation). -/
theorem chunk_soft_bound (text : List Char) (cs os : Nat) (c : List Char)
    (hc : c ∈ chunkText text cs os) :
    ∃ b ∈ baseChunks text cs,
      (c = b ∨ ∃ ov : List Char, ov.length ≤ os ∧ c = ov ++ sep2 ++ b) ∧
      (b.length ≤ cs ∨ (cs < b.length ∧
        ∃ p ∈ paragraphsOf text, b ∈ splitIntoSentences (trim p))) := by
  rw [chunkText_eq] at hc
  by_cases h : (trim text).length = 0
  · rw [if_pos h] at hc
    cases hc
  · rw [if_neg h] at hc
    have hbase : ∀ b ∈ baseChunks text cs, b.length ≤ cs ∨ (cs < b.length ∧
        ∃ p ∈ paragraphsOf text, b ∈ splitIntoSentences (trim p)) := by
      intro b hb
      have hg := baseChunks_good hb
      rcases hg.2.2 with hle | hsent
      · exact Or.inl hle
      · by_cases hlt : b.length ≤ cs
        · exact Or.inl hlt
        · exact Or.inr ⟨by omega, hsent⟩
    by_cases h2 : 0 < os ∧ 1 < (baseChunks text cs).length
    · rw [if_pos h2] at hc
      obtain ⟨b, hb, hform⟩ := addOverlap_mem hc
      exact ⟨b, hb, hform, hbase b hb⟩
    · rw [if_neg h2, baseChunks_filter_self] at hc
      exact ⟨c, hc, Or.inl rfl, hbase c hc⟩

/-- C1 witness: the amended theorem at a concrete segment. -/
theorem chunk_soft_bound_witness :
    "ab.".toList ∈ chunkText ".ab.".toList 3 0 ∧
    ∃ b ∈ baseChunks ".ab.".toList 3,
      ("ab.".toList = b ∨
        ∃ ov : List Char, ov.length ≤ 0 ∧ "ab.".toList = ov ++ sep2 ++ b) ∧
      (b.length ≤ 3 ∨ (3 < b.length ∧
        ∃ p ∈ paragraphsOf ".ab.".toList, b ∈ splitIntoSentences (trim p))) :=
  ⟨by decide, chunk_soft_bound ".ab.".toList 3 0 "ab.".toList (by decide)⟩

/-- C2: with `overlapSize > 0` and at least two pre-overlap chunks, the
final output has one segment per pre-overlap chunk; the first is the
first pre-overlap chunk unchanged; segment `i+1` is exactly the last
`min overlapSize length` characters of pre-overlap chunk `i` (the
clamped substring), followed by the two-character blank line `"\n\n"`,
followed by pre-overlap chunk `i+1` unchanged, so its length is
`min overlapSize (length of chunk i) + 2 + length of chunk i+1`. -/
theorem chunk_overlap_spec (text : List Char) (cs os : Nat)
    (h1 : 0 < os) (h2 : 2 ≤ (baseChunks text cs).length) :
    (chunkText text cs os).length = (baseChunks text cs).length ∧
    (chunkText text cs os).getD 0 [] = (baseChunks text cs).getD 0 [] ∧
    ∀ i, i + 1 < (baseChunks text cs).length →
      (chunkText text cs os).getD (i + 1) [] =
        ((baseChunks text cs).getD i []).drop
          (((baseChunks text cs).getD i []).length - os) ++ sep2 ++
          (baseChunks text cs).getD (i + 1) [] ∧
      ((chunkText text cs os).getD (i + 1) []).length =
        min os ((baseChunks text cs).getD i []).length + 2 +
          ((baseChunks text cs).getD (i + 1) []).length := by
  have hbne : baseChunks text cs ≠ [] := by
    intro h0
    rw [h0] at h2
    simp at h2
  have htne : ¬ (trim text).length = 0 := by
    intro h0
    exact hbne (baseChunks_nil (List.length_eq_zero.mp h0))
  have hov : chunkText text cs os = addOverlapToChunks (baseChunks text cs) os := by
    rw [chunkText_eq, if_neg htne, if_pos ⟨h1, by omega⟩]
  obtain ⟨hz, hsucc⟩ := addOverlap_spec (baseChunks text cs) os hbne
  refine ⟨by rw [hov, addOverlap_length], by rw [hov]; exact hz, ?_⟩
  intro i hi
  have he := hsucc i hi
  refine ⟨by rw [hov]; exact he, ?_⟩
  rw [hov, he]
  simp only [List.length_append, List.length_drop, sep2, List.length_cons,
    List.length_nil]
  omega

/-- C2 witness: the theorem instantiated at `"aa\n\nbb"` with
`chunkSize = 2`, `overlapSize = 1` (pre-overlap chunks `["aa", "bb"]`,
output `["aa", "a\n\nbb"]`). -/
theorem chunk_overlap_spec_witness :
    (0 : Nat) < 1 ∧ 2 ≤ (baseChunks "aa\n\nbb".toList 2).length ∧
    ((chunkText "aa\n\nbb".toList 2 1).length =
        (baseChunks "aa\n\nbb".toList 2).length ∧
      (chunkText "aa\n\nbb".toList 2 1).getD 0 [] =
        (baseChunks "aa\n\nbb".toList 2).getD 0 [] ∧
      ∀ i, i + 1 < (baseChunks "aa\n\nbb".toList 2).length →
        (chunkText "aa\n\nbb".toList 2 1).getD (i + 1) [] =
          ((baseChunks "aa\n\nbb".toList 2).getD i []).drop
            (((baseChunks "aa\n\nbb".toList 2).getD i []).length - 1) ++
            sep2 ++ (baseChunks "aa\n\nbb".toList 2).getD (i + 1) [] ∧
        ((chunkText "aa\n\nbb".toList 2 1).getD (i + 1) []).length =
          min 1 ((baseChunks "aa\n\nbb".toList 2).getD i []).length + 2 +
            ((baseChunks "aa\n\nbb".toList 2).getD (i + 1) []).length) :=
  ⟨by decide, by decide,
    chunk_overlap_spec "aa\n\nbb".toList 2 1 (by decide) (by decide)⟩

/-- C5 counterexample: the input `"a\n \nb"` trims to itself (length 6,
well under `chunkSize = 1000`), but the single returned segment is
`"a\n\nb"` — the blank-line separator `"\n \n"` is normalised to
`"\n\n"` — so the segment does not equal the trimmed input. -/
theorem chunk_small_not_trimmed_input :
    (trim "a\n \nb".toList).length ≤ 1000 ∧
    chunkText "a\n \nb".toList 1000 0 ≠ [trim "a\n \nb".toList] := by
  refine ⟨by decide, by decide⟩

/-- C5 amended: for every input whose trim is non-empty and of length
at most `chunkSize`, `chunkText` returns exactly one segment, for every
`overlapSize`: the trimmed paragraphs joined by a two-newline blank
line.  This equals the trimmed input whenever every blank-line
separator is exactly `"\n\n"` and no paragraph carries surrounding
whitespace. -/
theorem chunk_small_single (text : List Char) (cs os : Nat)
    (h1 : trim text ≠ []) (h2 : (trim text).length ≤ cs) :
    chunkText text cs os = [joinSep2 ((paragraphsOf text).map trim)] := by
  have hptne : ∀ p ∈ paragraphsOf text, trim p ≠ [] :=
    fun p hp => (mem_paragraphsOf hp).2
  have hja : joinAcc [] (paragraphsOf text) =
      joinSep2 ((paragraphsOf text).map trim) := joinAcc_nil_eq _ hptne
  have hple : (joinAcc [] (paragraphsOf text)).length ≤ cs := by
    rw [hja]
    exact le_trans (paragraphs_join_le text) h2
  have hfold := paraFold_no_flush cs (paragraphsOf text) [] [] hple
  have hJfix := joinSep2_trim_fix ((paragraphsOf text).map trim)
    (by
      intro h0
      exact paragraphsOf_ne_nil h1 (List.map_eq_nil_iff.mp h0))
    (by
      intro x hx
      obtain ⟨p, hp, rfl⟩ := List.mem_map.mp hx
      exact ⟨trim_idem p, hptne p hp⟩)
  have hbase : baseChunks text cs = [joinSep2 ((paragraphsOf text).map trim)] := by
    rw [baseChunks_eq, hfold]
    show (if trim (joinAcc [] (paragraphsOf text)) = [] then ([] : List (List Char))
      else [] ++ [trim (joinAcc [] (paragraphsOf text))]) = _
    rw [hja, hJfix.1, if_neg hJfix.2]
    rfl
  rw [chunkText_eq, if_neg (fun h0 => h1 (List.length_eq_zero.mp h0)), hbase,
    if_neg (by simp), List.filter_cons,
    if_pos (by
      simp only [decide_eq_true_eq]
      rw [hJfix.1]
      exact List.length_pos.mpr hJfix.2)]
  rfl

/-- C5 witness: the amended theorem at the counterexample's input. -/
theorem chunk_small_single_witness :
    trim "a\n \nb".toList ≠ [] ∧ (trim "a\n \nb".toList).length ≤ 1000 ∧
    chunkText "a\n \nb".toList 1000 0 =
      [joinSep2 ((paragraphsOf "a\n \nb".toList).map trim)] :=
  ⟨by decide, by decide,
    chunk_small_single "a\n \nb".toList 1000 0 (by decide) (by decide)⟩

/-- C10 amended: every returned segment is non-empty and carries no
trailing whitespace; when no overlap prefix was prepended
(`overlapSize = 0`) every segment is fully trimmed; the overlap pass
preserves the number and order of segments (same length, and element
`i` extends pre-overlap chunk `i` by a prefix) and maps non-empty
chunks to non-empty segments.  Segments with an overlap prefix may
begin with whitespace copied from the middle of the previous chunk. -/
theorem chunk_segments_shape :
    (∀ (text : List Char) (cs os : Nat) (c : List Char),
      c ∈ chunkText text cs os → c ≠ [] ∧ trimRight c = c) ∧
    (∀ (text : List Char) (cs : Nat) (c : List Char),
      c ∈ chunkText text cs 0 → trim c = c) ∧
    (∀ (bs : List (List Char)) (os : Nat),
      (addOverlapToChunks bs os).length = bs.length) ∧
    (∀ (bs : List (List Char)) (os i : Nat), i < bs.length →
      ∃ ov : List Char,
        (addOverlapToChunks bs os).getD i [] = ov ++ bs.getD i []) ∧
    (∀ (bs : List (List Char)) (os : Nat) (c : List Char),
      (∀ b ∈ bs, b ≠ []) → c ∈ addOverlapToChunks bs os → c ≠ []) := by
  refine ⟨?_, ?_, addOverlap_length, ?_, ?_⟩
  · intro text cs os c hc
    rw [chunkText_eq] at hc
    by_cases h : (trim text).length = 0
    · rw [if_pos h] at hc
      cases hc
    · rw [if_neg h] at hc
      by_cases h2 : 0 < os ∧ 1 < (baseChunks text cs).length
      · rw [if_pos h2] at hc
        obtain ⟨b, hb, hform⟩ := addOverlap_mem hc
        have hg := baseChunks_good hb
        have hbr : trimRight b = b := trimRight_of_trim_fix hg.1
        have hbne : trimRight b ≠ [] := by
          rw [hbr]
          exact hg.2.1
        rcases hform with rfl | ⟨ov, -, rfl⟩
        · exact ⟨hg.2.1, hbr⟩
        · refine ⟨by simp [sep2], ?_⟩
          rw [trimRight_append_ne hbne, hbr]
      · rw [if_neg h2, baseChunks_filter_self] at hc
        have hg := baseChunks_good hc
        exact ⟨hg.2.1, trimRight_of_trim_fix hg.1⟩
  · intro text cs c hc
    rw [chunkText_eq] at hc
    by_cases h : (trim text).length = 0
    · rw [if_pos h] at hc
      cases hc
    · rw [if_neg h, if_neg (by simp), baseChunks_filter_self] at hc
      exact (baseChunks_good hc).1
  · intro bs os i hi
    have hbne : bs ≠ [] := by
      intro h0
      rw [h0] at hi
      simp at hi
    obtain ⟨hz, hs⟩ := addOverlap_spec bs os hbne
    cases i with
    | zero =>
      exact ⟨[], by rw [hz]; simp⟩
    | succ j =>
      refine ⟨(bs.getD j []).drop ((bs.getD j []).length - os) ++ sep2, ?_⟩
      rw [hs j hi]
  · intro bs os c hall hc
    obtain ⟨b, hb, hform⟩ := addOverlap_mem hc
    rcases hform with rfl | ⟨ov, -, rfl⟩
    · exact hall _ hb
    · simp [sep2]

/-- C10 witness: the first component at a concrete segment. -/
theorem chunk_segments_shape_witness :
    "ab cd".toList ∈ chunkText "ab cd\n\nxy".toList 5 3 ∧
    ("ab cd".toList ≠ [] ∧ trimRight "ab cd".toList = "ab cd".toList) :=
  ⟨by decide,
    chunk_segments_shape.1 "ab cd\n\nxy".toList 5 3 "ab cd".toList (by decide)⟩
